import Mathlib


/-!
# Fast square root and inverse square root approximations

A verification development for `fast_sqrt_and_inv_sqrt_approx.cpp`.

A `float` is modelled by its IEEE 754 binary32 bit pattern, a natural number
below `2 ^ 32`; the `union { float f; uint32_t i; }` of the source is the
identity on that pattern.  `uint32_t` arithmetic is arithmetic on `Nat`
reduced modulo `2 ^ 32`.  The number a finite pattern denotes is the rational
`floatVal`.  The `float` operations `*` and `-` are the IEEE 754 operations
with round-to-nearest, ties-to-even, every operation rounded to binary32
(`FLT_EVAL_METHOD == 0`, no contraction into fused multiply-add): the exact
result of an operation on finite operands is a dyadic number `n * 2 ^ e`,
which `roundMag` rounds.
-/

namespace FastSqrt

/-! ## Bit patterns of binary32 -/

/-- The sign bit (bit 31) of a binary32 pattern. -/
def signBit (i : Nat) : Nat := i / 2 ^ 31 % 2

/-- The biased exponent field (bits 30..23) of a binary32 pattern. -/
def expField (i : Nat) : Nat := i / 2 ^ 23 % 256

/-- The mantissa field (bits 22..0) of a binary32 pattern. -/
def manField (i : Nat) : Nat := i % 2 ^ 23

/-- The pattern of a positive normal number: sign bit clear, exponent field
between 1 and 254, that is `2 ^ 23 ≤ i < 255 * 2 ^ 23`. -/
def isPosNormal (i : Nat) : Prop := 2 ^ 23 ≤ i ∧ i < 255 * 2 ^ 23

instance (i : Nat) : Decidable (isPosNormal i) := by
  unfold isPosNormal; infer_instance

/-- The integer significand of a finite pattern: the mantissa field, with the
implicit leading bit when the number is normal. -/
def sig (i : Nat) : Nat :=
  if expField i = 0 then manField i else 2 ^ 23 + manField i

/-- The exponent of the last place of a finite pattern: the value is
`sig i * 2 ^ expo i` (bias 127, 23 mantissa bits; subnormals share the
exponent of the smallest normals). -/
def expo (i : Nat) : Int :=
  if expField i = 0 then -149 else (expField i : Int) - 150

/-- The magnitude denoted by a binary32 pattern; 0 for the patterns of
infinities and NaNs, which denote no number. -/
def floatMag (i : Nat) : ℚ :=
  if expField i = 255 then 0 else (sig i : ℚ) * (2 : ℚ) ^ expo i

/-- The rational number denoted by a finite binary32 pattern. -/
def floatVal (i : Nat) : ℚ :=
  if signBit i = 1 then - floatMag i else floatMag i

/-- The pattern is a NaN. -/
def isNaN (i : Nat) : Prop := expField i = 255 ∧ manField i ≠ 0

instance (i : Nat) : Decidable (isNaN i) := by
  unfold isNaN; infer_instance

/-- The pattern is an infinity. -/
def isInf (i : Nat) : Prop := expField i = 255 ∧ manField i = 0

instance (i : Nat) : Decidable (isInf i) := by
  unfold isInf; infer_instance

/-- The pattern is a zero. -/
def isZero (i : Nat) : Prop := expField i = 0 ∧ manField i = 0

instance (i : Nat) : Decidable (isZero i) := by
  unfold isZero; infer_instance

/-- The pattern of the quiet NaN returned by an invalid operation.  The
payload and sign of NaN results are not modelled further. -/
def quietNaN : Nat := 0x7FC00000

/-- The pattern of positive infinity. -/
def posInf : Nat := 0x7F800000

/-! ## Rounding to nearest, ties to even -/

/-- Auxiliary function of `bitLen`, by recursion on a bound. -/
def bitLenAux : Nat → Nat → Nat
  | 0, _ => 0
  | fuel + 1, n => if n = 0 then 0 else bitLenAux fuel (n / 2) + 1

/-- The number of binary digits of `n`: `2 ^ (bitLen n - 1) ≤ n < 2 ^ bitLen n`
for positive `n`. -/
def bitLen (n : Nat) : Nat := bitLenAux n n

/-- The integer nearest to `n / 2 ^ s`, the even one in case of a tie. -/
def roundShift (n s : Nat) : Nat :=
  let q := n / 2 ^ s
  let r := n % 2 ^ s
  if 2 * r < 2 ^ s then q
  else if 2 ^ s < 2 * r then q + 1
  else if q % 2 = 0 then q else q + 1

/-- The pattern (sign bit clear) of the binary32 number nearest to the exact
magnitude `n * 2 ^ e`, ties to even.  The last place of the result has
exponent `q`: 24 significant bits are kept, and no exponent below -149 is
used (gradual underflow).  The rounded significand `m` is placed by
`(q + 149) * 2 ^ 23 + m`, which also carries a significand rounded up to
`2 ^ 24` into the exponent field; a result beyond the largest finite number
is infinity, and the magnitude 0 is the pattern 0. -/
def roundMag (n : Nat) (e : Int) : Nat :=
  if n = 0 then 0
  else
    let q : Int := max ((bitLen n : Int) - 24 + e) (-149)
    let m : Nat := if q ≤ e then n * 2 ^ (e - q).toNat else roundShift n (q - e).toNat
    let p : Nat := (q + 149).toNat * 2 ^ 23 + m
    if posInf ≤ p then posInf else p

/-- The `float` product `a * b`. -/
def fmul (a b : Nat) : Nat :=
  let s := (signBit a + signBit b) % 2
  if isNaN a ∨ isNaN b then quietNaN
  else if isInf a ∨ isInf b then
    (if isZero a ∨ isZero b then quietNaN
     else s * 2 ^ 31 + posInf)
  else s * 2 ^ 31 + roundMag (sig a * sig b) (expo a + expo b)

/-- The signed integer `k` with `floatVal i = k * 2 ^ e`, for a finite pattern
`i` and an exponent `e ≤ expo i`. -/
def scaled (i : Nat) (e : Int) : Int :=
  (if signBit i = 1 then -1 else 1) * ((sig i * 2 ^ (expo i - e).toNat : Nat) : Int)

/-- The `float` difference `a - b`. -/
def fsub (a b : Nat) : Nat :=
  if isNaN a ∨ isNaN b then quietNaN
  else if isInf a then (if isInf b ∧ signBit a = signBit b then quietNaN else a)
  else if isInf b then (1 - signBit b) * 2 ^ 31 + posInf
  else
    let e := min (expo a) (expo b)
    let d : Int := scaled a e - scaled b e
    if d = 0 then (if signBit a = 1 ∧ signBit b = 0 then 2 ^ 31 else 0)
    else (if d < 0 then 2 ^ 31 else 0) + roundMag d.natAbs e

/-! ## `sqrt_approx` -/

/-- The C statement `val.i -= 1 << 23` on a `uint32_t`. -/
def sqrtStep1 (i : Nat) : Nat := (i + (2 ^ 32 - 2 ^ 23)) % 2 ^ 32

/-- The C statement `val.i >>= 1`. -/
def sqrtStep2 (i : Nat) : Nat := i / 2

/-- The C statement `val.i += 1 << 29` on a `uint32_t`. -/
def sqrtStep3 (i : Nat) : Nat := (i + 2 ^ 29) % 2 ^ 32

/-- The C statement `val.i += -0x4b0d2`: the `int` operand is converted to
`uint32_t`, that is to `2 ^ 32 - 0x4b0d2`, and added modulo `2 ^ 32`. -/
def sqrtStep4 (i : Nat) : Nat := (i + (2 ^ 32 - 0x4b0d2)) % 2 ^ 32

/-- The function `sqrt_approx` of the source, on bit patterns. -/
def sqrt_approx (z : Nat) : Nat :=
  sqrtStep4 (sqrtStep3 (sqrtStep2 (sqrtStep1 z)))

/-! ## `q_rsqrt` and `q_rsqrt_v2_more_precise` -/

/-- The statement `conv.i = 0x5f3759df - (conv.i >> 1)` of `q_rsqrt`, a
`uint32_t` subtraction. -/
def q_rsqrt_estimate (i : Nat) : Nat := (0x5f3759df + (2 ^ 32 - i / 2)) % 2 ^ 32

/-- The statement `conv.i = 0x5F1FFFF9 - (conv.i >> 1)` of
`q_rsqrt_v2_more_precise`. -/
def q_rsqrt_v2_estimate (i : Nat) : Nat := (0x5F1FFFF9 + (2 ^ 32 - i / 2)) % 2 ^ 32

/-- The pattern of the literal `1.5F`. -/
def c1_5 : Nat := 0x3FC00000

/-- The pattern of the literal `0.5F`. -/
def c0_5 : Nat := 0x3F000000

/-- The pattern of the literal `0.703952253f`. -/
def c0_703952253 : Nat := 0x3F343637

/-- The pattern of the literal `2.38924456f`. -/
def c2_38924456 : Nat := 0x4018E962

/-- The function `q_rsqrt` of the source, on bit patterns:
`conv.f *= 1.5F - (number * 0.5F * conv.f * conv.f)`. -/
def q_rsqrt (number : Nat) : Nat :=
  let y := q_rsqrt_estimate number
  fmul y (fsub c1_5 (fmul (fmul (fmul number c0_5) y) y))

/-- The function `q_rsqrt_v2_more_precise` of the source, on bit patterns:
`conv.f *= 0.703952253f * (2.38924456f - number * conv.f * conv.f)`. -/
def q_rsqrt_v2_more_precise (number : Nat) : Nat :=
  let y := q_rsqrt_v2_estimate number
  fmul y (fmul c0_703952253 (fsub c2_38924456 (fmul (fmul number y) y)))

/-- The value `q_rsqrt` would return if the refinement step
`conv.f * (1.5F - (number * 0.5F * conv.f * conv.f))` were evaluated without
rounding, from the same initial estimate. -/
def q_rsqrt_exact (number : Nat) : ℚ :=
  let x := floatVal number
  let y := floatVal (q_rsqrt_estimate number)
  y * (3 / 2 - x * (1 / 2) * y * y)

/-- The value `q_rsqrt_v2_more_precise` would return if the refinement step
`conv.f * (0.703952253f * (2.38924456f - number * conv.f * conv.f))` were
evaluated without rounding, from the same initial estimate and with the
binary32 values of the two literals. -/
def q_rsqrt_v2_exact (number : Nat) : ℚ :=
  let x := floatVal number
  let y := floatVal (q_rsqrt_v2_estimate number)
  y * (floatVal c0_703952253 * (floatVal c2_38924456 - x * y * y))

/-! ## Interval checks used in the error analysis

With `k` the halved mantissa of the input and `r` its last bit, the input has
significand `2 ^ 23 + 2 * k + r` and the initial estimate has significand
`C - k`; the product `(2 ^ 23 + 2 * k + r) * (C - k) ^ 2` is bounded on a
block `a ≤ k ≤ b` by its values at the corners. -/

/-- On the block `a ≤ k ≤ b`, the bound `L` is below and the bound `H` is
above `(2 ^ 23 + 2 * k + r) * (C - k) ^ 2`, by monotonicity of both factors. -/
def blockOk (C L H a b : Nat) : Bool :=
  decide (b ≤ C) && decide (L ≤ (2 ^ 23 + 2 * a) * (C - b) ^ 2) &&
    decide ((2 ^ 23 + 2 * b + 1) * (C - a) ^ 2 ≤ H)

/-- The check `blockOk` on `n` consecutive blocks of `s + 1` values starting at
`a`, which together cover every `k` up to `kEnd`. -/
def blocksOk (C L H s kEnd : Nat) : Nat → Nat → Bool
  | 0, a => decide (kEnd < a)
  | n + 1, a =>
    blockOk C L H a (min (a + s) kEnd) && blocksOk C L H s kEnd n (min (a + s) kEnd + 1)

end FastSqrt


namespace FastSqrt

/-! ## Values of positive normal patterns -/

theorem posNormal_expField (i : Nat) (h : isPosNormal i) :
    expField i = i / 2 ^ 23 ∧ 1 ≤ i / 2 ^ 23 ∧ i / 2 ^ 23 ≤ 254 ∧ signBit i = 0 := by
  unfold isPosNormal at h
  unfold expField signBit
  norm_num at h ⊢
  omega

theorem floatVal_posNormal (i : Nat) (h : isPosNormal i) :
    floatVal i = ((2 ^ 23 + i % 2 ^ 23 : Nat) : ℚ) * (2 : ℚ) ^ ((i / 2 ^ 23 : Nat) : Int) / 2 ^ 150 := by
  obtain ⟨he, h1, h2, hs⟩ := posNormal_expField i h
  have hne : ¬ (i / 2 ^ 23 = 0) := by omega
  have hne2 : ¬ (i / 2 ^ 23 = 255) := by omega
  simp only [floatVal, floatMag, sig, expo, manField, hs, he, hne, hne2, if_false]
  rw [zpow_sub₀ (by norm_num : (2 : ℚ) ≠ 0)]
  norm_num
  ring

theorem floatVal_pos (i : Nat) (h : isPosNormal i) : 0 < floatVal i := by
  rw [floatVal_posNormal i h]
  positivity

/-- The value of the pattern with exponent field `e` and significand `2 ^ 23 + m`. -/
theorem floatVal_fields (e m : Nat) (he1 : 1 ≤ e) (he2 : e ≤ 254) (hm : m < 2 ^ 23) :
    floatVal (e * 2 ^ 23 + m) = ((2 ^ 23 + m : Nat) : ℚ) * (2 : ℚ) ^ (e : Int) / 2 ^ 150 := by
  have hn : isPosNormal (e * 2 ^ 23 + m) := by
    unfold isPosNormal; norm_num at hm ⊢; omega
  rw [floatVal_posNormal _ hn]
  have h1 : (e * 2 ^ 23 + m) % 2 ^ 23 = m := by norm_num at hm ⊢; omega
  have h2 : (e * 2 ^ 23 + m) / 2 ^ 23 = e := by norm_num at hm ⊢; omega
  rw [h1, h2]

end FastSqrt


namespace FastSqrt

/-- The scaled value `(2 ^ 23 + m) * 2 ^ e` is strictly increasing in the pattern. -/
theorem scaledNat_lt (i j : Nat) (h : i < j) :
    (2 ^ 23 + i % 2 ^ 23) * 2 ^ (i / 2 ^ 23) < (2 ^ 23 + j % 2 ^ 23) * 2 ^ (j / 2 ^ 23) := by
  have hmi : i % 2 ^ 23 < 2 ^ 23 := Nat.mod_lt _ (by norm_num)
  have hdi := Nat.div_add_mod i (2 ^ 23)
  have hdj := Nat.div_add_mod j (2 ^ 23)
  have hmj : j % 2 ^ 23 < 2 ^ 23 := Nat.mod_lt _ (by norm_num)
  have hle : i / 2 ^ 23 ≤ j / 2 ^ 23 := Nat.div_le_div_right (le_of_lt h)
  rcases Nat.eq_or_lt_of_le hle with heq | hlt
  · rw [heq]
    have : i % 2 ^ 23 < j % 2 ^ 23 := by
      rw [heq] at hdi
      omega
    exact Nat.mul_lt_mul_of_lt_of_le (by omega) le_rfl (by positivity)
  · calc (2 ^ 23 + i % 2 ^ 23) * 2 ^ (i / 2 ^ 23)
        < (2 ^ 23 + 2 ^ 23) * 2 ^ (i / 2 ^ 23) :=
          Nat.mul_lt_mul_of_lt_of_le (by omega) le_rfl (by positivity)
      _ = 2 ^ 23 * 2 ^ (i / 2 ^ 23 + 1) := by ring
      _ ≤ 2 ^ 23 * 2 ^ (j / 2 ^ 23) :=
          Nat.mul_le_mul_left _ (Nat.pow_le_pow_right (by norm_num) hlt)
      _ ≤ (2 ^ 23 + j % 2 ^ 23) * 2 ^ (j / 2 ^ 23) :=
          Nat.mul_le_mul_right _ (by omega)

theorem floatVal_scaledNat (i : Nat) (h : isPosNormal i) :
    floatVal i = (((2 ^ 23 + i % 2 ^ 23) * 2 ^ (i / 2 ^ 23) : Nat) : ℚ) / 2 ^ 150 := by
  rw [floatVal_posNormal i h, zpow_natCast]
  push_cast
  rfl

theorem floatVal_lt (i j : Nat) (hi : isPosNormal i) (hj : isPosNormal j) (h : i < j) :
    floatVal i < floatVal j := by
  rw [floatVal_scaledNat i hi, floatVal_scaledNat j hj]
  have := scaledNat_lt i j h
  have h2 : (((2 ^ 23 + i % 2 ^ 23) * 2 ^ (i / 2 ^ 23) : Nat) : ℚ)
      < (((2 ^ 23 + j % 2 ^ 23) * 2 ^ (j / 2 ^ 23) : Nat) : ℚ) := by exact_mod_cast this
  exact div_lt_div_of_pos_right h2 (by positivity)

theorem floatVal_le (i j : Nat) (hi : isPosNormal i) (hj : isPosNormal j) (h : i ≤ j) :
    floatVal i ≤ floatVal j := by
  rcases Nat.eq_or_lt_of_le h with heq | hlt
  · rw [heq]
  · exact le_of_lt (floatVal_lt i j hi hj hlt)

theorem floatVal_le_iff (i j : Nat) (hi : isPosNormal i) (hj : isPosNormal j) :
    floatVal i ≤ floatVal j ↔ i ≤ j := by
  constructor
  · intro h
    by_contra hc
    have := floatVal_lt j i hj hi (by omega)
    linarith
  · exact floatVal_le i j hi hj

/-! ## The integer steps of `sqrt_approx` -/

theorem posNormal_bounds (i : Nat) (h : isPosNormal i) : 8388608 ≤ i ∧ i < 2139095040 := by
  unfold isPosNormal at h
  norm_num at h
  exact h

theorem posNormal_of_bounds (i : Nat) (h1 : 8388608 ≤ i) (h2 : i < 2139095040) : isPosNormal i := by
  unfold isPosNormal
  norm_num
  exact ⟨h1, h2⟩

theorem sqrt_approx_eq_num (i : Nat) (h1 : 8388608 ≤ i) (h2 : i < 4294967296) :
    sqrt_approx i = i / 2 + 532369198 := by
  unfold sqrt_approx sqrtStep4 sqrtStep3 sqrtStep2 sqrtStep1
  norm_num
  omega


theorem sqrt_approx_eq (i : Nat) (h1 : 2 ^ 23 ≤ i) (h2 : i < 2 ^ 32) :
    sqrt_approx i = i / 2 + 127 * 2 ^ 22 - 0x4b0d2 := by
  unfold sqrt_approx sqrtStep4 sqrtStep3 sqrtStep2 sqrtStep1
  norm_num at h1 h2 ⊢
  omega

theorem sqrt_approx_posNormal (i : Nat) (h : isPosNormal i) : isPosNormal (sqrt_approx i) := by
  unfold isPosNormal at h ⊢
  have h32 : i < 2 ^ 32 := by
    have := h.2
    norm_num at this ⊢
    omega
  have heq := sqrt_approx_eq i h.1 h32
  norm_num at h heq ⊢
  omega

theorem sqrt_approx_mono_bits (i j : Nat) (hi : isPosNormal i) (hj : isPosNormal j) (h : i ≤ j) :
    sqrt_approx i ≤ sqrt_approx j := by
  unfold isPosNormal at hi hj
  have hi32 : i < 2 ^ 32 := by
    have := hi.2
    norm_num at this ⊢
    omega
  have hj32 : j < 2 ^ 32 := by
    have := hj.2
    norm_num at this ⊢
    omega
  have e1 := sqrt_approx_eq i hi.1 hi32
  have e2 := sqrt_approx_eq j hj.1 hj32
  norm_num at e1 e2
  omega

end FastSqrt


namespace FastSqrt

/-- Adding `2 ^ 23` to a positive normal pattern doubles its value. -/
theorem floatVal_add_exp (p : Nat) (h : isPosNormal p) (h2 : isPosNormal (p + 2 ^ 23)) :
    floatVal (p + 2 ^ 23) = 2 * floatVal p := by
  rw [floatVal_scaledNat p h, floatVal_scaledNat _ h2]
  have e1 : (p + 2 ^ 23) % 2 ^ 23 = p % 2 ^ 23 := by norm_num
  have e2 : (p + 2 ^ 23) / 2 ^ 23 = p / 2 ^ 23 + 1 := by norm_num
  rw [e1, e2, pow_succ]
  push_cast
  ring

theorem estimate_eq (i : Nat) (h : i < 2 ^ 31) :
    q_rsqrt_estimate i = 0x5f3759df - i / 2 ∧ q_rsqrt_v2_estimate i = 0x5F1FFFF9 - i / 2 := by
  unfold q_rsqrt_estimate q_rsqrt_v2_estimate
  norm_num at h ⊢
  omega

theorem estimate_posNormal (i : Nat) (h : i < 2 ^ 31) :
    isPosNormal (q_rsqrt_estimate i) ∧ isPosNormal (q_rsqrt_v2_estimate i) := by
  obtain ⟨e1, e2⟩ := estimate_eq i h
  unfold isPosNormal
  norm_num at h e1 e2 ⊢
  omega

end FastSqrt


namespace FastSqrt

/-- The value of the pattern with exponent field `e` and mantissa field `m`,
with a natural power of two. -/
theorem floatVal_fields_nat (e m : Nat) (he1 : 1 ≤ e) (he2 : e ≤ 254) (hm : m < 8388608) :
    floatVal (e * 8388608 + m) = (8388608 + (m : ℚ)) * (2 : ℚ) ^ e / 2 ^ 150 := by
  have h := floatVal_fields e m he1 he2 (by norm_num; exact hm)
  rw [zpow_natCast] at h
  norm_num at h
  rw [h]
  norm_num

/-! ## The relative error of `sqrt_approx` -/

theorem sqrt_poly_even (k m : ℚ) (hk0 : 0 ≤ k) (hk1 : k ≤ 4194303) (hm0 : 2 * k ≤ m)
    (hm1 : m ≤ 2 * k + 1) :
    9652 ^ 2 * (2 ^ 24 * (2 ^ 23 + m)) < 10 ^ 8 * (12275502 + k) ^ 2 ∧
    10 ^ 8 * (12275502 + k) ^ 2 < 10348 ^ 2 * (2 ^ 24 * (2 ^ 23 + m)) := by
  constructor
  · nlinarith [sq_nonneg k, mul_nonneg hk0 (sub_nonneg.mpr hk1)]
  · nlinarith [mul_nonneg hk0 (sub_nonneg.mpr hk1)]

theorem sqrt_poly_odd_hi (k m : ℚ) (hk0 : 307410 ≤ k) (hk1 : k ≤ 4194303) (hm0 : 2 * k ≤ m)
    (hm1 : m ≤ 2 * k + 1) :
    9652 ^ 2 * (2 ^ 23 * (2 ^ 23 + m)) < 10 ^ 8 * (2 ^ 23 + k - 307410) ^ 2 ∧
    10 ^ 8 * (2 ^ 23 + k - 307410) ^ 2 < 10348 ^ 2 * (2 ^ 23 * (2 ^ 23 + m)) := by
  constructor
  · nlinarith [sq_nonneg (k - 307410), mul_nonneg (sub_nonneg.mpr hk0) (sub_nonneg.mpr hk1)]
  · nlinarith [mul_nonneg (sub_nonneg.mpr hk0) (sub_nonneg.mpr hk1)]

theorem sqrt_poly_odd_lo (k m : ℚ) (hk0 : 0 ≤ k) (hk1 : k ≤ 307409) (hm0 : 2 * k ≤ m)
    (hm1 : m ≤ 2 * k + 1) :
    9652 ^ 2 * (2 ^ 25 * (2 ^ 23 + m)) < 10 ^ 8 * (2 ^ 24 + k - 307410) ^ 2 ∧
    10 ^ 8 * (2 ^ 24 + k - 307410) ^ 2 < 10348 ^ 2 * (2 ^ 25 * (2 ^ 23 + m)) := by
  constructor
  · nlinarith [sq_nonneg (k - 307409), mul_nonneg hk0 (sub_nonneg.mpr hk1)]
  · nlinarith [mul_nonneg hk0 (sub_nonneg.mpr hk1)]

/-- Decomposition of a positive normal pattern into exponent field, halved
mantissa and its last bit. -/
theorem posNormal_decomp (i : Nat) (h : isPosNormal i) :
    ∃ e k r : Nat, i = e * 8388608 + (2 * k + r) ∧ r ≤ 1 ∧ k ≤ 4194303 ∧ 1 ≤ e ∧ e ≤ 254 := by
  obtain ⟨b1, b2⟩ := posNormal_bounds i h
  exact ⟨i / 8388608, i % 8388608 / 2, i % 8388608 % 2, by omega, by omega, by omega, by omega,
    by omega⟩

/-- The squared output of `sqrt_approx` is within the factors `0.9652 ^ 2` and
`1.0348 ^ 2` of its input, for every positive normal input. -/
theorem sqrt_ratio_bounds (i : Nat) (h : isPosNormal i) :
    0 < floatVal (sqrt_approx i) ∧
    (9652 / 10000 : ℚ) ^ 2 * floatVal i < floatVal (sqrt_approx i) ^ 2 ∧
    floatVal (sqrt_approx i) ^ 2 < (10348 / 10000 : ℚ) ^ 2 * floatVal i := by
  refine ⟨floatVal_pos _ (sqrt_approx_posNormal i h), ?_⟩
  obtain ⟨b1, b2⟩ := posNormal_bounds i h
  have hout := sqrt_approx_eq_num i b1 (by omega)
  obtain ⟨e, k, r, hi, hr, hk, he1, he2⟩ := posNormal_decomp i h
  have hZ : floatVal i = (8388608 + ((2 * k + r : Nat) : ℚ)) * (2 : ℚ) ^ e / 2 ^ 150 := by
    rw [hi]
    exact floatVal_fields_nat e (2 * k + r) he1 he2 (by omega)
  have hk0 : (0 : ℚ) ≤ (k : ℚ) := Nat.cast_nonneg k
  have hk1 : (k : ℚ) ≤ 4194303 := by exact_mod_cast hk
  have hm0 : 2 * (k : ℚ) ≤ ((2 * k + r : Nat) : ℚ) := by
    have : (0 : ℚ) ≤ (r : ℚ) := Nat.cast_nonneg r
    push_cast
    linarith
  have hm1 : ((2 * k + r : Nat) : ℚ) ≤ 2 * (k : ℚ) + 1 := by
    push_cast
    have : (r : ℚ) ≤ 1 := by exact_mod_cast hr
    linarith
  rcases Nat.even_or_odd' e with ⟨a, ha | ha⟩
  · -- even exponent field
    have ho : sqrt_approx i = (a + 63) * 8388608 + (3886894 + k) := by omega
    have hR : floatVal (sqrt_approx i)
        = (8388608 + ((3886894 + k : Nat) : ℚ)) * (2 : ℚ) ^ (a + 63) / 2 ^ 150 := by
      rw [ho]
      exact floatVal_fields_nat (a + 63) (3886894 + k) (by omega) (by omega) (by omega)
    obtain ⟨p1, p2⟩ := sqrt_poly_even k ((2 * k + r : Nat) : ℚ) hk0 hk1 hm0 hm1
    have ht : (0 : ℚ) < 2 ^ a := by positivity
    rw [hR, hZ, ha]
    generalize ((2 * k + r : Nat) : ℚ) = m at p1 p2
    push_cast
    rw [pow_add, pow_mul']
    generalize (2 : ℚ) ^ a = t at ht
    constructor
    · rw [← sub_pos]
      have key : ((8388608 + (3886894 + (k : ℚ))) * (t * 2 ^ 63) / 2 ^ 150) ^ 2
          - (9652 / 10000) ^ 2 * ((8388608 + m) * t ^ 2 / 2 ^ 150)
          = t ^ 2 * (10 ^ 8 * (12275502 + (k : ℚ)) ^ 2 - 9652 ^ 2 * (2 ^ 24 * (2 ^ 23 + m)))
            / (10 ^ 8 * 2 ^ 174) := by
        field_simp
        ring
      rw [key]
      exact div_pos (mul_pos (pow_pos ht 2) (by linarith)) (by positivity)
    · rw [← sub_pos]
      have key : (10348 / 10000) ^ 2 * ((8388608 + m) * t ^ 2 / 2 ^ 150)
          - ((8388608 + (3886894 + (k : ℚ))) * (t * 2 ^ 63) / 2 ^ 150) ^ 2
          = t ^ 2 * (10348 ^ 2 * (2 ^ 24 * (2 ^ 23 + m)) - 10 ^ 8 * (12275502 + (k : ℚ)) ^ 2)
            / (10 ^ 8 * 2 ^ 174) := by
        field_simp
        ring
      rw [key]
      exact div_pos (mul_pos (pow_pos ht 2) (by linarith)) (by positivity)
  · -- odd exponent field
    have ht : (0 : ℚ) < 2 ^ a := by positivity
    rcases Nat.lt_or_ge k 307410 with hlt | hge
    · have ho : sqrt_approx i = (a + 63) * 8388608 + (8081198 + k) := by omega
      have hR : floatVal (sqrt_approx i)
          = (8388608 + ((8081198 + k : Nat) : ℚ)) * (2 : ℚ) ^ (a + 63) / 2 ^ 150 := by
        rw [ho]
        exact floatVal_fields_nat (a + 63) (8081198 + k) (by omega) (by omega) (by omega)
      have hk2 : (k : ℚ) ≤ 307409 := by
        have : k ≤ 307409 := by omega
        exact_mod_cast this
      obtain ⟨p1, p2⟩ := sqrt_poly_odd_lo k ((2 * k + r : Nat) : ℚ) hk0 hk2 hm0 hm1
      rw [hR, hZ, ha]
      generalize ((2 * k + r : Nat) : ℚ) = m at p1 p2
      push_cast
      rw [pow_add, pow_add, pow_mul']
      generalize (2 : ℚ) ^ a = t at ht
      constructor
      · rw [← sub_pos]
        have key : ((8388608 + (8081198 + (k : ℚ))) * (t * 2 ^ 63) / 2 ^ 150) ^ 2
            - (9652 / 10000) ^ 2 * ((8388608 + m) * (t ^ 2 * 2 ^ 1) / 2 ^ 150)
            = t ^ 2 * (10 ^ 8 * (2 ^ 24 + (k : ℚ) - 307410) ^ 2 - 9652 ^ 2 * (2 ^ 25 * (2 ^ 23 + m)))
              / (10 ^ 8 * 2 ^ 174) := by
          field_simp
          ring
        rw [key]
        exact div_pos (mul_pos (pow_pos ht 2) (by linarith)) (by positivity)
      · rw [← sub_pos]
        have key : (10348 / 10000) ^ 2 * ((8388608 + m) * (t ^ 2 * 2 ^ 1) / 2 ^ 150)
            - ((8388608 + (8081198 + (k : ℚ))) * (t * 2 ^ 63) / 2 ^ 150) ^ 2
            = t ^ 2 * (10348 ^ 2 * (2 ^ 25 * (2 ^ 23 + m)) - 10 ^ 8 * (2 ^ 24 + (k : ℚ) - 307410) ^ 2)
              / (10 ^ 8 * 2 ^ 174) := by
          field_simp
          ring
        rw [key]
        exact div_pos (mul_pos (pow_pos ht 2) (by linarith)) (by positivity)
    · obtain ⟨j, hj⟩ : ∃ j : Nat, k = 307410 + j := ⟨k - 307410, by omega⟩
      have ho : sqrt_approx i = (a + 64) * 8388608 + j := by omega
      have hR : floatVal (sqrt_approx i)
          = (8388608 + (j : ℚ)) * (2 : ℚ) ^ (a + 64) / 2 ^ 150 := by
        rw [ho]
        exact floatVal_fields_nat (a + 64) j (by omega) (by omega) (by omega)
      have hk2 : (307410 : ℚ) ≤ (k : ℚ) := by exact_mod_cast hge
      have hj2 : (j : ℚ) = (k : ℚ) - 307410 := by
        rw [hj]
        push_cast
        ring
      obtain ⟨p1, p2⟩ := sqrt_poly_odd_hi k ((2 * k + r : Nat) : ℚ) hk2 hk1 hm0 hm1
      rw [hR, hZ, ha, hj2]
      generalize ((2 * k + r : Nat) : ℚ) = m at p1 p2
      rw [pow_add, pow_add, pow_mul']
      generalize (2 : ℚ) ^ a = t at ht
      constructor
      · rw [← sub_pos]
        have key : ((8388608 + ((k : ℚ) - 307410)) * (t * 2 ^ 64) / 2 ^ 150) ^ 2
            - (9652 / 10000) ^ 2 * ((8388608 + m) * (t ^ 2 * 2 ^ 1) / 2 ^ 150)
            = t ^ 2 * (10 ^ 8 * (2 ^ 23 + (k : ℚ) - 307410) ^ 2 - 9652 ^ 2 * (2 ^ 23 * (2 ^ 23 + m)))
              / (10 ^ 8 * 2 ^ 172) := by
          field_simp
          ring
        rw [key]
        exact div_pos (mul_pos (pow_pos ht 2) (by linarith)) (by positivity)
      · rw [← sub_pos]
        have key : (10348 / 10000) ^ 2 * ((8388608 + m) * (t ^ 2 * 2 ^ 1) / 2 ^ 150)
            - ((8388608 + ((k : ℚ) - 307410)) * (t * 2 ^ 64) / 2 ^ 150) ^ 2
            = t ^ 2 * (10348 ^ 2 * (2 ^ 23 * (2 ^ 23 + m)) - 10 ^ 8 * (2 ^ 23 + (k : ℚ) - 307410) ^ 2)
              / (10 ^ 8 * 2 ^ 172) := by
          field_simp
          ring
        rw [key]
        exact div_pos (mul_pos (pow_pos ht 2) (by linarith)) (by positivity)

end FastSqrt


namespace FastSqrt

/-! ## From squared bounds to relative errors against the real square root -/

/-- If `R ^ 2` is strictly between `(1 - ε) ^ 2 * Z` and `(1 + ε) ^ 2 * Z`, then
`R` is within relative error `ε` of the square root of `Z`. -/
theorem relErr_sqrt_lt (R Z ε : ℝ) (hR : 0 < R) (hZ : 0 < Z)
    (h1 : (1 - ε) ^ 2 * Z < R ^ 2) (h2 : R ^ 2 < (1 + ε) ^ 2 * Z) :
    |R - Real.sqrt Z| / Real.sqrt Z < ε := by
  have hs : 0 < Real.sqrt Z := Real.sqrt_pos.mpr hZ
  have hs2 : Real.sqrt Z ^ 2 = Z := Real.sq_sqrt (le_of_lt hZ)
  have hε0 : 0 < 1 + ε := by
    by_contra hc
    push_neg at hc
    nlinarith [mul_pos hZ (pow_pos hR 2), sq_nonneg (1 - ε), sq_nonneg (1 + ε)]
  rw [div_lt_iff₀ hs, abs_lt]
  constructor
  · by_contra hc
    push_neg at hc
    have h3 : R ≤ (1 - ε) * Real.sqrt Z := by linarith
    have h4 : R ^ 2 ≤ ((1 - ε) * Real.sqrt Z) ^ 2 := pow_le_pow_left₀ (le_of_lt hR) h3 2
    rw [mul_pow, hs2] at h4
    linarith
  · by_contra hc
    push_neg at hc
    have h3 : (1 + ε) * Real.sqrt Z ≤ R := by linarith
    have h4 : ((1 + ε) * Real.sqrt Z) ^ 2 ≤ R ^ 2 :=
      pow_le_pow_left₀ (le_of_lt (mul_pos hε0 hs)) h3 2
    rw [mul_pow, hs2] at h4
    linarith

/-- If `R ^ 2` exceeds `(1 + ε) ^ 2 * Z`, the relative error of `R` against
the square root of `Z` exceeds `ε`. -/
theorem relErr_sqrt_gt (R Z ε : ℝ) (hR : 0 < R) (hZ : 0 < Z)
    (h : (1 + ε) ^ 2 * Z < R ^ 2) :
    ε < |R - Real.sqrt Z| / Real.sqrt Z := by
  have hs : 0 < Real.sqrt Z := Real.sqrt_pos.mpr hZ
  have hs2 : Real.sqrt Z ^ 2 = Z := Real.sq_sqrt (le_of_lt hZ)
  rw [lt_div_iff₀ hs]
  have h3 : (1 + ε) * Real.sqrt Z < R := by
    by_contra hc
    push_neg at hc
    have h4 : R ^ 2 ≤ ((1 + ε) * Real.sqrt Z) ^ 2 := pow_le_pow_left₀ (le_of_lt hR) hc 2
    rw [mul_pow, hs2] at h4
    linarith
  have h5 : ε * Real.sqrt Z < R - Real.sqrt Z := by linarith
  exact lt_of_lt_of_le h5 (le_abs_self _)

/-- The relative error of `sqrt_approx` against the real square root is below
3.48 % on every positive normal input. -/
theorem sqrt_approx_relErr (z : Nat) (h : isPosNormal z) :
    |((floatVal (sqrt_approx z) : ℚ) : ℝ) - Real.sqrt ((floatVal z : ℚ) : ℝ)|
      / Real.sqrt ((floatVal z : ℚ) : ℝ) < 348 / 10000 := by
  obtain ⟨r0, r1, r2⟩ := sqrt_ratio_bounds z h
  have hz := floatVal_pos z h
  apply relErr_sqrt_lt
  · exact_mod_cast r0
  · exact_mod_cast hz
  · have : ((9652 / 10000 : ℚ) ^ 2 * floatVal z : ℚ) < (floatVal (sqrt_approx z) ^ 2 : ℚ) := r1
    have h2 : (((9652 / 10000 : ℚ) ^ 2 * floatVal z : ℚ) : ℝ)
        < ((floatVal (sqrt_approx z) ^ 2 : ℚ) : ℝ) := by exact_mod_cast this
    push_cast at h2
    norm_num at h2 ⊢
    linarith
  · have : (floatVal (sqrt_approx z) ^ 2 : ℚ) < ((10348 / 10000 : ℚ) ^ 2 * floatVal z : ℚ) := r2
    have h2 : ((floatVal (sqrt_approx z) ^ 2 : ℚ) : ℝ)
        < (((10348 / 10000 : ℚ) ^ 2 * floatVal z : ℚ) : ℝ) := by exact_mod_cast this
    push_cast at h2
    norm_num at h2 ⊢
    linarith

theorem floatVal_two : floatVal 0x40000000 = 2 := by
  have h := floatVal_fields_nat 128 0 (by norm_num) (by norm_num) (by norm_num)
  norm_num at h
  exact h

theorem floatVal_one : floatVal 0x3F800000 = 1 := by
  have h := floatVal_fields_nat 127 0 (by norm_num) (by norm_num) (by norm_num)
  norm_num at h
  exact h

theorem floatVal_four : floatVal 0x40800000 = 4 := by
  have h := floatVal_fields_nat 129 0 (by norm_num) (by norm_num) (by norm_num)
  norm_num at h
  exact h

theorem floatVal_sqrt_two : floatVal 0x3FBB4F2E = 12275502 / 8388608 := by
  have h := floatVal_fields_nat 127 3886894 (by norm_num) (by norm_num) (by norm_num)
  norm_num at h
  rw [h]
  norm_num

end FastSqrt


namespace FastSqrt

/-! ## Rounding to nearest: the number of digits and the rounded significand -/

theorem bitLenAux_zero (fuel : Nat) : bitLenAux fuel 0 = 0 := by
  cases fuel <;> simp [bitLenAux]

theorem bitLenAux_spec (fuel : Nat) : ∀ n : Nat, 0 < n → n < 2 ^ fuel →
    n < 2 ^ bitLenAux fuel n ∧ 2 ^ bitLenAux fuel n ≤ 2 * n := by
  induction fuel with
  | zero =>
    intro n hn h
    simp at h
    omega
  | succ f ih =>
    intro n hn h
    have hne : n ≠ 0 := by omega
    simp only [bitLenAux, hne, if_false]
    rcases Nat.eq_zero_or_pos (n / 2) with h0 | hpos
    · rw [h0, bitLenAux_zero]
      have : n = 1 := by omega
      subst this
      norm_num
    · have hlt : n / 2 < 2 ^ f := by
        rw [pow_succ] at h
        omega
      obtain ⟨i1, i2⟩ := ih (n / 2) hpos hlt
      rw [pow_succ]
      constructor <;> omega

theorem bitLen_spec (n : Nat) (hn : 0 < n) : n < 2 ^ bitLen n ∧ 2 ^ bitLen n ≤ 2 * n :=
  bitLenAux_spec n n hn (Nat.lt_two_pow n)

/-- The number of digits is determined by the enclosing powers of two. -/
theorem bitLen_eq (n L : Nat) (h1 : 2 ^ L ≤ 2 * n) (h2 : n < 2 ^ L) : bitLen n = L := by
  have hn : 0 < n := by
    rcases Nat.eq_zero_or_pos n with h0 | hp
    · subst h0
      have : 0 < 2 ^ L := by positivity
      omega
    · exact hp
  obtain ⟨s1, s2⟩ := bitLen_spec n hn
  have a1 : bitLen n ≤ L := by
    by_contra hc
    push_neg at hc
    have : 2 ^ (L + 1) ≤ 2 ^ bitLen n := Nat.pow_le_pow_right (by norm_num) hc
    rw [pow_succ] at this
    omega
  have a2 : L ≤ bitLen n := by
    by_contra hc
    push_neg at hc
    have : 2 ^ (bitLen n + 1) ≤ 2 ^ L := Nat.pow_le_pow_right (by norm_num) hc
    rw [pow_succ] at this
    omega
  omega

theorem roundShift_near (n s : Nat) :
    2 * (roundShift n s * 2 ^ s) ≤ 2 * n + 2 ^ s ∧ 2 * n ≤ 2 * (roundShift n s * 2 ^ s) + 2 ^ s := by
  have hd := Nat.div_add_mod n (2 ^ s)
  have hr : n % 2 ^ s < 2 ^ s := Nat.mod_lt _ (by positivity)
  have hc : 2 ^ s * (n / 2 ^ s) = n / 2 ^ s * 2 ^ s := Nat.mul_comm _ _
  simp only [roundShift]
  split_ifs with c1 c2 c3
  · constructor <;> omega
  · rw [Nat.add_mul]
    constructor <;> omega
  · constructor <;> omega
  · rw [Nat.add_mul]
    constructor <;> omega

theorem roundShift_bounds (n s : Nat) :
    n / 2 ^ s ≤ roundShift n s ∧ roundShift n s ≤ n / 2 ^ s + 1 := by
  simp only [roundShift]
  split_ifs <;> constructor <;> omega

/-- A significand between `2 ^ 23` and `2 ^ 24` placed above the exponent
field value `E` is a positive normal pattern of value `M * 2 ^ (E - 149)`. -/
theorem floatVal_place (E M : Nat) (hE : E ≤ 252) (h1 : 8388608 ≤ M) (h2 : M ≤ 16777216) :
    isPosNormal (E * 8388608 + M) ∧
    floatVal (E * 8388608 + M) = (M : ℚ) * (2 : ℚ) ^ (E + 1) / 2 ^ 150 ∧
    E + 1 ≤ expField (E * 8388608 + M) ∧ expField (E * 8388608 + M) ≤ E + 2 := by
  have hn : isPosNormal (E * 8388608 + M) := posNormal_of_bounds _ (by omega) (by omega)
  refine ⟨hn, ?_, ?_, ?_⟩
  · rcases Nat.lt_or_ge M 16777216 with hlt | hge
    · obtain ⟨j, hj⟩ : ∃ j : Nat, M = 8388608 + j := ⟨M - 8388608, by omega⟩
      have e1 : E * 8388608 + M = (E + 1) * 8388608 + j := by omega
      rw [e1, floatVal_fields_nat (E + 1) j (by omega) (by omega) (by omega), hj]
      push_cast
      ring
    · have hM : M = 16777216 := by omega
      have e1 : E * 8388608 + M = (E + 2) * 8388608 + 0 := by omega
      rw [e1, floatVal_fields_nat (E + 2) 0 (by omega) (by omega) (by omega), hM]
      push_cast
      ring
  · rw [(posNormal_expField _ hn).1]
    norm_num
    omega
  · rw [(posNormal_expField _ hn).1]
    norm_num
    omega

/-- The function `roundMag` with the integer exponents resolved, when no
underflow occurs: `E` is the exponent field below which the rounded
significand is placed. -/
theorem roundMag_unfold (n : Nat) (e : Int) (E : Nat) (hn : 0 < n)
    (hE : (E : Int) = (bitLen n : Int) + e + 125) :
    roundMag n e =
      if posInf ≤ E * 2 ^ 23 +
          (if bitLen n ≤ 24 then n * 2 ^ (24 - bitLen n) else roundShift n (bitLen n - 24))
      then posInf
      else E * 2 ^ 23 +
          (if bitLen n ≤ 24 then n * 2 ^ (24 - bitLen n) else roundShift n (bitLen n - 24)) := by
  have hq : max ((bitLen n : Int) - 24 + e) (-149) = (E : Int) - 149 := by omega
  have hc : ((E : Int) - 149 ≤ e) ↔ bitLen n ≤ 24 := by omega
  have t1 : ((E : Int) - 149 + 149).toNat = E := by omega
  have t2 : (e - ((E : Int) - 149)).toNat = 24 - bitLen n := by omega
  have t3 : (((E : Int) - 149) - e).toNat = bitLen n - 24 := by omega
  have hn0 : ¬ (n = 0) := by omega
  simp only [roundMag, hn0, if_false, hq, hc, t1, t2, t3]

/-- The exact magnitude `n * 2 ^ e` with a natural exponent. -/
theorem dyadic_eq (n : Nat) (e : Int) (E L : Nat) (hE : (E : Int) = (L : Int) + e + 125) :
    (n : ℚ) * (2 : ℚ) ^ e = (n : ℚ) * 2 ^ E / 2 ^ (125 + L) := by
  have he : e = (E : Int) - ((125 + L : Nat) : Int) := by push_cast; omega
  rw [he, zpow_sub₀ (by norm_num : (2 : ℚ) ≠ 0), zpow_natCast, zpow_natCast]
  ring

/-- Rounding a magnitude in the normal range: the result is a positive normal
pattern, its value is within the relative distance `2 ^ (-24)` of the exact
magnitude, and its exponent field is determined up to one. -/
theorem roundMag_spec (n : Nat) (e : Int) (E : Nat) (hn : 0 < n)
    (hE : (E : Int) = (bitLen n : Int) + e + 125) (hE2 : E ≤ 252) :
    isPosNormal (roundMag n e) ∧
    (n : ℚ) * (2 : ℚ) ^ e * (1 - 1 / 2 ^ 24) ≤ floatVal (roundMag n e) ∧
    floatVal (roundMag n e) ≤ (n : ℚ) * (2 : ℚ) ^ e * (1 + 1 / 2 ^ 24) ∧
    E + 1 ≤ expField (roundMag n e) ∧ expField (roundMag n e) ≤ E + 2 := by
  obtain ⟨s1, s2⟩ := bitLen_spec n hn
  rw [dyadic_eq n e E (bitLen n) hE, roundMag_unfold n e E hn hE]
  generalize bitLen n = L at s1 s2
  have hpos : (0 : ℚ) < (n : ℚ) * 2 ^ E / 2 ^ (125 + L) := by
    have : (0 : ℚ) < (n : ℚ) := by exact_mod_cast hn
    positivity
  by_cases hL : L ≤ 24
  · simp only [hL, if_true]
    obtain ⟨d, hd⟩ : ∃ d : Nat, 24 = L + d := ⟨24 - L, by omega⟩
    have hd2 : 24 - L = d := by omega
    rw [hd2]
    have hp : (2 : Nat) ^ 24 = 2 ^ L * 2 ^ d := by rw [← pow_add, ← hd]
    have m1 : 8388608 ≤ n * 2 ^ d := by
      have : 2 ^ L * 2 ^ d ≤ 2 * n * 2 ^ d := Nat.mul_le_mul_right _ s2
      have e2 : 2 * n * 2 ^ d = 2 * (n * 2 ^ d) := by ring
      norm_num at hp
      omega
    have m2 : n * 2 ^ d < 16777216 := by
      have : n * 2 ^ d < 2 ^ L * 2 ^ d := Nat.mul_lt_mul_of_pos_right s1 (by positivity)
      norm_num at hp
      omega
    obtain ⟨f1, f2, f3, f4⟩ := floatVal_place E (n * 2 ^ d) hE2 m1 (le_of_lt m2)
    have hno : ¬ (posInf ≤ E * 2 ^ 23 + n * 2 ^ d) := by
      unfold posInf
      norm_num
      omega
    simp only [hno, if_false]
    norm_num at f1 f2 f3 f4 ⊢
    refine ⟨f1, ?_, ?_, f3, f4⟩
    · rw [f2]
      have hv : (n : ℚ) * 2 ^ d * 2 ^ (E + 1) / 1427247692705959881058285969449495136382746624
          = (n : ℚ) * 2 ^ E / 2 ^ (125 + L) := by
        have hq : (2 : ℚ) ^ 24 = 2 ^ L * 2 ^ d := by exact_mod_cast hp
        rw [div_eq_div_iff (by norm_num) (by positivity)]
        rw [pow_add, pow_add]
        have h150 : (1427247692705959881058285969449495136382746624 : ℚ) = 2 ^ 125 * 2 ^ 24 * 2 := by
          norm_num
        rw [h150, hq]
        ring
      rw [hv]
      nlinarith
    · rw [f2]
      have hv : (n : ℚ) * 2 ^ d * 2 ^ (E + 1) / 1427247692705959881058285969449495136382746624
          = (n : ℚ) * 2 ^ E / 2 ^ (125 + L) := by
        have hq : (2 : ℚ) ^ 24 = 2 ^ L * 2 ^ d := by exact_mod_cast hp
        rw [div_eq_div_iff (by norm_num) (by positivity)]
        rw [pow_add, pow_add]
        have h150 : (1427247692705959881058285969449495136382746624 : ℚ) = 2 ^ 125 * 2 ^ 24 * 2 := by
          norm_num
        rw [h150, hq]
        ring
      rw [hv]
      nlinarith
  · obtain ⟨s, hs⟩ : ∃ s : Nat, L = 24 + s := ⟨L - 24, by omega⟩
    subst hs
    have hs2 : 24 + s - 24 = s := by omega
    simp only [hL, if_false, hs2]
    obtain ⟨r1, r2⟩ := roundShift_near n s
    obtain ⟨b1, b2⟩ := roundShift_bounds n s
    have hP : 0 < 2 ^ s := by positivity
    have c1 : 8388608 * 2 ^ s ≤ n := by
      have : (2 : Nat) ^ (24 + s) = 2 * (8388608 * 2 ^ s) := by rw [pow_add]; norm_num; ring
      omega
    have c2 : n < 16777216 * 2 ^ s := by
      have : (2 : Nat) ^ (24 + s) = 16777216 * 2 ^ s := by rw [pow_add]; norm_num
      omega
    have m1 : 8388608 ≤ roundShift n s := by
      have : 8388608 ≤ n / 2 ^ s := (Nat.le_div_iff_mul_le hP).mpr c1
      omega
    have m2 : roundShift n s ≤ 16777216 := by
      have : n / 2 ^ s < 16777216 := (Nat.div_lt_iff_lt_mul hP).mpr c2
      omega
    obtain ⟨f1, f2, f3, f4⟩ := floatVal_place E (roundShift n s) hE2 m1 m2
    have hno : ¬ (posInf ≤ E * 2 ^ 23 + roundShift n s) := by
      unfold posInf
      norm_num
      omega
    simp only [hno, if_false]
    norm_num at f1 f2 f3 f4 ⊢
    generalize roundShift n s = M at r1 r2 f1 f2 f3 f4
    have q1 : 2 * ((M : ℚ) * 2 ^ s) ≤ 2 * (n : ℚ) + 2 ^ s := by exact_mod_cast r1
    have q2 : 2 * (n : ℚ) ≤ 2 * ((M : ℚ) * 2 ^ s) + 2 ^ s := by exact_mod_cast r2
    have q3 : 8388608 * (2 : ℚ) ^ s ≤ (n : ℚ) := by exact_mod_cast c1
    have hw : (0 : ℚ) ≤ 2 ^ E / (2 ^ 149 * 2 ^ s) := by positivity
    have hx : (n : ℚ) * 2 ^ E / 2 ^ (125 + (24 + s)) = (n : ℚ) * (2 ^ E / (2 ^ 149 * 2 ^ s)) := by
      rw [show 125 + (24 + s) = 149 + s by omega, pow_add]
      ring
    have hy : (M : ℚ) * 2 ^ (E + 1) / 1427247692705959881058285969449495136382746624
        = ((M : ℚ) * 2 ^ s) * (2 ^ E / (2 ^ 149 * 2 ^ s)) := by
      have h150 : (1427247692705959881058285969449495136382746624 : ℚ) = 2 ^ 149 * 2 := by norm_num
      have hPq : (2 : ℚ) ^ s ≠ 0 := by positivity
      rw [h150, pow_succ]
      field_simp
      ring
    generalize (2 : ℚ) ^ E / (2 ^ 149 * 2 ^ s) = w at hw hx hy
    have k1 : (n : ℚ) * (16777215 / 16777216) ≤ (M : ℚ) * 2 ^ s := by linarith
    have k2 : (M : ℚ) * 2 ^ s ≤ (n : ℚ) * (16777217 / 16777216) := by linarith
    have k3 := mul_le_mul_of_nonneg_right k1 hw
    have k4 := mul_le_mul_of_nonneg_right k2 hw
    refine ⟨f1, ?_, ?_, f3, f4⟩
    · rw [f2, hx, hy]
      linarith
    · rw [f2, hx, hy]
      linarith

end FastSqrt


namespace FastSqrt

/-! ## The product and the difference of positive normal floats -/

/-- The model of the float operations on known binary32 results: exact
products, roundings up and down, a tie rounded to even, gradual underflow,
overflow to infinity, signs, cancellation, an exact zero, products with a
zero, and underflow to zero and to a subnormal tie. -/
theorem float_ops_examples :
    fmul 0x3FC00000 0x3FC00000 = 0x40100000 ∧ fmul 0x40400000 0x3DCCCCCD = 0x3E99999A ∧
    fmul 0x1E3CE508 0x1E3CE508 = 0x000116C2 ∧ fmul 0x006CE3EE 0x3F000000 = 0x003671F7 ∧
    fmul 0x7F61B1E6 0x40000000 = 0x7F800000 ∧ fmul 0xC0000000 0x40400000 = 0xC0C00000 ∧
    fmul 0x3DCCCCCD 0x3DCCCCCD = 0x3C23D70B ∧ fmul 0x3F800001 0x3F800001 = 0x3F800002 ∧
    fsub 0x3FC00000 0x3F000000 = 0x3F800000 ∧ fsub 0x3F800000 0x3F7FFFFE = 0x34000000 ∧
    fsub 0x3DCCCCCD 0x3E99999A = 0xBE4CCCCE ∧ fsub 0x006CE3EE 0x00620057 = 0x000AE397 ∧
    fsub 0x4B800000 0x3F800000 = 0x4B7FFFFF ∧ fsub 0x4B800001 0xBF800000 = 0x4B800002 ∧
    fsub 0x40000000 0x40000000 = 0 ∧
    fmul 0 0x5F3759DF = 0 ∧ fmul 0x80000000 0x40400000 = 0x80000000 ∧
    fmul 0x00000001 0x3E800000 = 0 ∧ fmul 0x00000003 0x3F000000 = 0x00000002 := by
  refine ⟨?_, ?_, ?_, ?_, ?_, ?_, ?_, ?_, ?_, ?_, ?_, ?_, ?_, ?_, ?_, ?_, ?_, ?_, ?_⟩ <;> decide


theorem posNormal_sig (a : Nat) (h : isPosNormal a) :
    floatVal a = (sig a : ℚ) * (2 : ℚ) ^ expo a ∧ 8388608 ≤ sig a ∧ sig a < 16777216 ∧
    expo a = (expField a : Int) - 150 ∧ signBit a = 0 ∧ 1 ≤ expField a ∧ expField a ≤ 254 := by
  obtain ⟨he, h1, h2, hs⟩ := posNormal_expField a h
  have hne : ¬ (expField a = 0) := by omega
  have hne2 : ¬ (expField a = 255) := by omega
  have hm : manField a < 8388608 := by
    unfold manField
    exact Nat.mod_lt _ (by norm_num)
  refine ⟨?_, ?_, ?_, ?_, hs, by omega, by omega⟩
  · simp only [floatVal, floatMag, hs, hne2, if_false]
    norm_num
  · simp only [sig, hne, if_false]
    norm_num
  · simp only [sig, hne, if_false]
    norm_num
    omega
  · simp only [expo, hne, if_false]

theorem posNormal_not_special (a : Nat) (h : isPosNormal a) : ¬ isNaN a ∧ ¬ isInf a := by
  obtain ⟨_, _, _, _, _, h1, h2⟩ := posNormal_sig a h
  unfold isNaN isInf
  constructor <;> intro hc <;> omega

/-- The product of two positive normal floats, given the number of digits `L`
of the product of the significands and the resulting exponent field `E`. -/
theorem fmul_core (a b L E : Nat) (ha : isPosNormal a) (hb : isPosNormal b)
    (hL : bitLen (sig a * sig b) = L) (hE : E + 175 = L + expField a + expField b)
    (hE2 : E ≤ 252) :
    isPosNormal (fmul a b) ∧
    floatVal a * floatVal b * (1 - 1 / 2 ^ 24) ≤ floatVal (fmul a b) ∧
    floatVal (fmul a b) ≤ floatVal a * floatVal b * (1 + 1 / 2 ^ 24) ∧
    E + 1 ≤ expField (fmul a b) ∧ expField (fmul a b) ≤ E + 2 := by
  obtain ⟨va, a1, a2, ea, sa, _, _⟩ := posNormal_sig a ha
  obtain ⟨vb, b1, b2, eb, sb, _, _⟩ := posNormal_sig b hb
  obtain ⟨na1, na2⟩ := posNormal_not_special a ha
  obtain ⟨nb1, nb2⟩ := posNormal_not_special b hb
  have hf : fmul a b = roundMag (sig a * sig b) (expo a + expo b) := by
    simp only [fmul, na1, na2, nb1, nb2, sa, sb, or_self, if_false]
    norm_num
  have hn1 : 0 < sig a * sig b := Nat.mul_pos (by omega) (by omega)
  have hv : floatVal a * floatVal b = ((sig a * sig b : Nat) : ℚ) * (2 : ℚ) ^ (expo a + expo b) := by
    rw [va, vb, zpow_add₀ (by norm_num : (2 : ℚ) ≠ 0)]
    push_cast
    ring
  rw [hf, hv]
  exact roundMag_spec (sig a * sig b) (expo a + expo b) E hn1
    (by rw [hL, ea, eb]; omega) hE2

/-- The product of two positive normal floats whose exponent fields sum to a
value in `[128, 379]` is a positive normal float within the relative distance
`2 ^ (-24)` of the exact product. -/
theorem fmul_spec (a b : Nat) (ha : isPosNormal a) (hb : isPosNormal b)
    (h1 : 128 ≤ expField a + expField b) (h2 : expField a + expField b ≤ 379) :
    isPosNormal (fmul a b) ∧
    floatVal a * floatVal b * (1 - 1 / 2 ^ 24) ≤ floatVal (fmul a b) ∧
    floatVal (fmul a b) ≤ floatVal a * floatVal b * (1 + 1 / 2 ^ 24) ∧
    expField a + expField b ≤ expField (fmul a b) + 127 ∧
    expField (fmul a b) + 125 ≤ expField a + expField b := by
  obtain ⟨_, a1, a2, _, _, _, _⟩ := posNormal_sig a ha
  obtain ⟨_, b1, b2, _, _, _, _⟩ := posNormal_sig b hb
  have hn1 : 8388608 * 8388608 ≤ sig a * sig b := Nat.mul_le_mul a1 b1
  have hn2 : sig a * sig b < 16777216 * 16777216 :=
    Nat.mul_lt_mul_of_lt_of_le a2 (le_of_lt b2) (by omega)
  rcases Nat.lt_or_ge (sig a * sig b) (2 ^ 47) with hlt | hge
  · have hL : bitLen (sig a * sig b) = 47 := by
      apply bitLen_eq _ _ _ hlt
      norm_num at hn1 ⊢
      omega
    obtain ⟨E, hE⟩ : ∃ E : Nat, E + 128 = expField a + expField b := ⟨_, Nat.sub_add_cancel h1⟩
    obtain ⟨r1, r2, r3, r4, r5⟩ := fmul_core a b 47 E ha hb hL (by omega) (by omega)
    exact ⟨r1, r2, r3, by omega, by omega⟩
  · have hL : bitLen (sig a * sig b) = 48 := by
      apply bitLen_eq
      · norm_num at hge ⊢
        omega
      · norm_num at hn2 ⊢
        omega
    obtain ⟨E, hE⟩ : ∃ E : Nat, E + 127 = expField a + expField b :=
      ⟨_, Nat.sub_add_cancel (by omega : 127 ≤ expField a + expField b)⟩
    obtain ⟨r1, r2, r3, r4, r5⟩ := fmul_core a b 48 E ha hb hL (by omega) (by omega)
    exact ⟨r1, r2, r3, by omega, by omega⟩

/-- The product of a positive normal float with exponent field at least 2 and
the constant `0.5F`. -/
theorem fmul_half_spec (a : Nat) (ha : isPosNormal a) (h1 : 2 ≤ expField a) :
    isPosNormal (fmul a c0_5) ∧
    floatVal a * (1 / 2) * (1 - 1 / 2 ^ 24) ≤ floatVal (fmul a c0_5) ∧
    floatVal (fmul a c0_5) ≤ floatVal a * (1 / 2) * (1 + 1 / 2 ^ 24) ∧
    expField a ≤ expField (fmul a c0_5) + 1 ∧ expField (fmul a c0_5) ≤ expField a := by
  obtain ⟨_, a1, a2, _, _, _, a3⟩ := posNormal_sig a ha
  have hc : isPosNormal c0_5 := by decide
  have sc : sig c0_5 = 8388608 := by decide
  have ec : expField c0_5 = 126 := by decide
  have vc : floatVal c0_5 = 1 / 2 := by
    have h := floatVal_fields_nat 126 0 (by norm_num) (by norm_num) (by norm_num)
    norm_num at h
    exact h
  have hL : bitLen (sig a * sig c0_5) = 47 := by
    rw [sc]
    apply bitLen_eq
    · norm_num
      omega
    · norm_num
      omega
  obtain ⟨E, hE⟩ : ∃ E : Nat, E + 2 = expField a := ⟨_, Nat.sub_add_cancel h1⟩
  obtain ⟨r1, r2, r3, r4, r5⟩ := fmul_core a c0_5 47 E ha hc hL (by omega) (by omega)
  rw [vc] at r2 r3
  exact ⟨r1, r2, r3, by omega, by omega⟩

/-- A pattern up to `2 ^ 23` (zero, a subnormal, or the smallest normal) has
the sign bit clear, significand equal to the pattern and last-place exponent
`-149`. -/
theorem small_fields (t : Nat) (ht : t ≤ 8388608) :
    signBit t = 0 ∧ sig t = t ∧ expo t = -149 ∧ ¬ isNaN t ∧ ¬ isInf t := by
  rcases Nat.lt_or_ge t 8388608 with hlt | hge
  · have he : expField t = 0 := by
      unfold expField
      norm_num
      omega
    have hm : manField t = t := by
      unfold manField
      norm_num
      omega
    refine ⟨?_, ?_, ?_, ?_, ?_⟩
    · unfold signBit
      norm_num
      omega
    · simp only [sig, he, hm, if_true]
    · simp only [expo, he, if_true]
    · unfold isNaN
      omega
    · unfold isInf
      omega
  · have ht2 : t = 8388608 := by omega
    subst ht2
    refine ⟨by decide, by decide, by decide, by decide, by decide⟩

/-- The product of a positive normal float of the smallest binade and the
constant `0.5F` is a subnormal (or the smallest normal) pattern `t` with
`2 ^ 22 ≤ t ≤ 2 ^ 23`, denoting `t * 2 ^ (-149)`, within the relative distance
`2 ^ (-23)` of the exact half. -/
theorem fmul_half_small (a : Nat) (ha : isPosNormal a) (h1 : a < 16777216) :
    4194304 ≤ fmul a c0_5 ∧ fmul a c0_5 ≤ 8388608 ∧
    floatVal a * (1 / 2) * (1 - 1 / 2 ^ 23) ≤ (fmul a c0_5 : ℚ) / 2 ^ 149 ∧
    (fmul a c0_5 : ℚ) / 2 ^ 149 ≤ floatVal a * (1 / 2) * (1 + 1 / 2 ^ 23) := by
  obtain ⟨va, a1, a2, ea, sa, a3, a4⟩ := posNormal_sig a ha
  obtain ⟨na1, na2⟩ := posNormal_not_special a ha
  have hE : expField a = 1 := by
    obtain ⟨b1, b2⟩ := posNormal_bounds a ha
    rw [(posNormal_expField a ha).1]
    norm_num
    omega
  have hc1 : ¬ isNaN c0_5 := by decide
  have hc2 : ¬ isInf c0_5 := by decide
  have sc : sig c0_5 = 8388608 := by decide
  have ec : expo c0_5 = -24 := by decide
  have ssc : signBit c0_5 = 0 := by decide
  have hexp : expo a = -149 := by rw [ea, hE]; norm_num
  have hL : bitLen (sig a * 8388608) = 47 := by
    apply bitLen_eq
    · norm_num
      omega
    · norm_num
      omega
  have hn0 : ¬ (sig a * 8388608 = 0) := by omega
  have hf : fmul a c0_5 = roundShift (sig a * 8388608) 24 := by
    have hq : max (((47 : Nat) : Int) - 24 + (-149 + -24)) (-149) = -149 := by norm_num
    have hno : ¬ (posInf ≤ roundShift (sig a * 8388608) 24) := by
      obtain ⟨_, r2⟩ := roundShift_bounds (sig a * 8388608) 24
      unfold posInf
      norm_num at r2 ⊢
      omega
    simp only [fmul, na1, na2, hc1, hc2, sa, ssc, or_self, if_false, sc, ec, hexp, roundMag, hn0,
      hL, hq]
    norm_num
    have t24 : (24 : Int).toNat = 24 := by decide
    rw [t24, if_neg hno]
  obtain ⟨r1, r2⟩ := roundShift_near (sig a * 8388608) 24
  obtain ⟨t, ht⟩ : ∃ t : Nat, roundShift (sig a * 8388608) 24 = t := ⟨_, rfl⟩
  rw [hf, ht]
  rw [ht] at r1 r2
  norm_num at r1 r2
  have k1 : 2 * t ≤ sig a + 1 := by omega
  have k2 : sig a ≤ 2 * t + 1 := by omega
  have q1 : 2 * (t : ℚ) ≤ (sig a : ℚ) + 1 := by exact_mod_cast k1
  have q2 : (sig a : ℚ) ≤ 2 * (t : ℚ) + 1 := by exact_mod_cast k2
  have q3 : (8388608 : ℚ) ≤ (sig a : ℚ) := by exact_mod_cast a1
  have hX : floatVal a = (sig a : ℚ) / 2 ^ 149 := by
    rw [va, hexp, zpow_neg, div_eq_mul_inv]
    norm_cast
  rw [hX]
  have hp : (0 : ℚ) < 2 ^ 149 := by positivity
  refine ⟨by omega, by omega, ?_, ?_⟩
  · rw [le_div_iff₀ hp]
    have : (sig a : ℚ) / 2 ^ 149 * (1 / 2) * (1 - 1 / 2 ^ 23) * 2 ^ 149
        = (sig a : ℚ) * (1 / 2) * (1 - 1 / 2 ^ 23) := by
      field_simp
      ring
    rw [this]
    norm_num
    linarith
  · rw [div_le_iff₀ hp]
    have : (sig a : ℚ) / 2 ^ 149 * (1 / 2) * (1 + 1 / 2 ^ 23) * 2 ^ 149
        = (sig a : ℚ) * (1 / 2) * (1 + 1 / 2 ^ 23) := by
      field_simp
      ring
    rw [this]
    norm_num
    linarith

/-- The product of a pattern `t` with `2 ^ 22 ≤ t ≤ 2 ^ 23` (a subnormal of at
least 22 significant bits, or the smallest normal) and a positive normal float
with exponent field at least 128 is a positive normal float within the
relative distance `2 ^ (-24)` of the exact product. -/
theorem fmul_small_spec (t b : Nat) (ht1 : 4194304 ≤ t) (ht2 : t ≤ 8388608)
    (hb : isPosNormal b) (hEb : 128 ≤ expField b) :
    isPosNormal (fmul t b) ∧
    (t : ℚ) / 2 ^ 149 * floatVal b * (1 - 1 / 2 ^ 24) ≤ floatVal (fmul t b) ∧
    floatVal (fmul t b) ≤ (t : ℚ) / 2 ^ 149 * floatVal b * (1 + 1 / 2 ^ 24) ∧
    expField b ≤ expField (fmul t b) + 127 ∧ expField (fmul t b) + 125 ≤ expField b := by
  obtain ⟨st, sgt, et, nt1, nt2⟩ := small_fields t ht2
  obtain ⟨vb, b1, b2, eb, sb, b3, b4⟩ := posNormal_sig b hb
  obtain ⟨nb1, nb2⟩ := posNormal_not_special b hb
  have hf : fmul t b = roundMag (t * sig b) (-149 + expo b) := by
    simp only [fmul, nt1, nt2, nb1, nb2, st, sb, sgt, et, or_self, if_false]
    norm_num
  have hn1 : 4194304 * 8388608 ≤ t * sig b := Nat.mul_le_mul ht1 b1
  have hn2 : t * sig b < 8388608 * 16777216 :=
    Nat.mul_lt_mul_of_le_of_lt ht2 b2 (by omega)
  have hv : (t : ℚ) / 2 ^ 149 * floatVal b
      = ((t * sig b : Nat) : ℚ) * (2 : ℚ) ^ (-149 + expo b) := by
    rw [vb, zpow_add₀ (by norm_num : (2 : ℚ) ≠ 0), zpow_neg]
    push_cast
    have : ((2 : ℚ) ^ (149 : ℤ)) = 2 ^ 149 := by norm_cast
    rw [this]
    ring
  rw [hf, hv]
  rcases Nat.lt_or_ge (t * sig b) (2 ^ 46) with hlt | hge
  · have hL : bitLen (t * sig b) = 46 := by
      apply bitLen_eq _ _ _ hlt
      norm_num at hn1 ⊢
      omega
    obtain ⟨E, hE⟩ : ∃ E : Nat, E + 128 = expField b := ⟨_, Nat.sub_add_cancel hEb⟩
    obtain ⟨r1, r2, r3, r4, r5⟩ := roundMag_spec (t * sig b) (-149 + expo b) E (by omega)
      (by rw [hL, eb]; omega) (by omega)
    exact ⟨r1, r2, r3, by omega, by omega⟩
  · have hL : bitLen (t * sig b) = 47 := by
      apply bitLen_eq
      · norm_num at hge ⊢
        omega
      · norm_num at hn2 ⊢
        omega
    obtain ⟨E, hE⟩ : ∃ E : Nat, E + 127 = expField b :=
      ⟨_, Nat.sub_add_cancel (by omega : 127 ≤ expField b)⟩
    obtain ⟨r1, r2, r3, r4, r5⟩ := roundMag_spec (t * sig b) (-149 + expo b) E (by omega)
      (by rw [hL, eb]; omega) (by omega)
    exact ⟨r1, r2, r3, by omega, by omega⟩

/-- The difference `a - b` of two positive normal floats, when it is positive
and in the normal range, is a positive normal float within the relative
distance `2 ^ (-24)` of the exact difference. -/
theorem fsub_spec (a b : Nat) (ha : isPosNormal a) (hb : isPosNormal b)
    (hlo : (1 : ℚ) / 2 ^ 126 ≤ floatVal a - floatVal b)
    (hhi : floatVal a - floatVal b < 2 ^ 127) :
    isPosNormal (fsub a b) ∧
    (floatVal a - floatVal b) * (1 - 1 / 2 ^ 24) ≤ floatVal (fsub a b) ∧
    floatVal (fsub a b) ≤ (floatVal a - floatVal b) * (1 + 1 / 2 ^ 24) := by
  obtain ⟨va, a1, a2, ea, sa, _, _⟩ := posNormal_sig a ha
  obtain ⟨vb, b1, b2, eb, sb, _, _⟩ := posNormal_sig b hb
  obtain ⟨na1, na2⟩ := posNormal_not_special a ha
  obtain ⟨nb1, nb2⟩ := posNormal_not_special b hb
  obtain ⟨e, he⟩ : ∃ e : Int, e = min (expo a) (expo b) := ⟨_, rfl⟩
  obtain ⟨ka, hka⟩ : ∃ ka : Nat, expo a = e + ka := ⟨(expo a - e).toNat, by omega⟩
  obtain ⟨kb, hkb⟩ : ∃ kb : Nat, expo b = e + kb := ⟨(expo b - e).toNat, by omega⟩
  have ta : (expo a - e).toNat = ka := by omega
  have tb : (expo b - e).toNat = kb := by omega
  have h2 : (0 : ℚ) < (2 : ℚ) ^ e := by positivity
  have hva : floatVal a = ((sig a * 2 ^ ka : Nat) : ℚ) * (2 : ℚ) ^ e := by
    rw [va, hka, zpow_add₀ (by norm_num : (2 : ℚ) ≠ 0), zpow_natCast]
    push_cast
    ring
  have hvb : floatVal b = ((sig b * 2 ^ kb : Nat) : ℚ) * (2 : ℚ) ^ e := by
    rw [vb, hkb, zpow_add₀ (by norm_num : (2 : ℚ) ≠ 0), zpow_natCast]
    push_cast
    ring
  have hlt : sig b * 2 ^ kb < sig a * 2 ^ ka := by
    have hpos : (0 : ℚ) < floatVal a - floatVal b := lt_of_lt_of_le (by positivity) hlo
    by_contra hc
    push_neg at hc
    have h3 : ((sig a * 2 ^ ka : Nat) : ℚ) ≤ ((sig b * 2 ^ kb : Nat) : ℚ) := by exact_mod_cast hc
    have h4 := mul_le_mul_of_nonneg_right h3 (le_of_lt h2)
    rw [hva, hvb] at hpos
    linarith
  obtain ⟨n, hn⟩ : ∃ n : Nat, sig a * 2 ^ ka = sig b * 2 ^ kb + n := ⟨_, (Nat.add_sub_cancel' (le_of_lt hlt)).symm⟩
  have hnpos : 0 < n := by omega
  have hD : floatVal a - floatVal b = (n : ℚ) * (2 : ℚ) ^ e := by
    rw [hva, hvb, hn]
    push_cast
    ring
  have hf : fsub a b = roundMag n e := by
    have hd : (sig a : Int) * 2 ^ ka - (sig b : Int) * 2 ^ kb = (n : Int) := by
      have := congrArg (Nat.cast : Nat → Int) hn
      push_cast at this
      linarith
    have hd0 : ¬ ((n : Int) = 0) := by omega
    have hd1 : ¬ ((sig a : Int) * 2 ^ ka < (sig b : Int) * 2 ^ kb) := by
      have : (0 : Int) < (n : Int) := by omega
      linarith
    simp only [fsub, scaled, na1, na2, nb1, nb2, sa, sb, or_self, if_false, ← he, ta, tb]
    norm_num
    rw [hd]
    simp only [hd0, hd1, if_false, Int.natAbs_ofNat]
    norm_num
  obtain ⟨s1, s2⟩ := bitLen_spec n hnpos
  have g1 : (-126 : Int) < (bitLen n : Int) + e := by
    have c1 : (2 : ℚ) ^ (-126 : Int) < (2 : ℚ) ^ ((bitLen n : Int) + e) := by
      have c2 : (n : ℚ) < 2 ^ bitLen n := by exact_mod_cast s1
      have c3 : (n : ℚ) * (2 : ℚ) ^ e < 2 ^ bitLen n * (2 : ℚ) ^ e := mul_lt_mul_of_pos_right c2 h2
      rw [zpow_add₀ (by norm_num : (2 : ℚ) ≠ 0), zpow_natCast]
      have c4 : (2 : ℚ) ^ (-126 : Int) = 1 / 2 ^ 126 := by
        rw [zpow_neg, one_div]
        norm_cast
      rw [c4]
      linarith
    exact (zpow_lt_zpow_iff_right₀ (by norm_num : (1 : ℚ) < 2)).mp c1
  have g2 : (bitLen n : Int) + e < 128 := by
    have c1 : (2 : ℚ) ^ ((bitLen n : Int) + e) < (2 : ℚ) ^ (128 : Int) := by
      have c2 : (2 : ℚ) ^ bitLen n ≤ 2 * (n : ℚ) := by exact_mod_cast s2
      have c3 : (2 : ℚ) ^ bitLen n * (2 : ℚ) ^ e ≤ 2 * (n : ℚ) * (2 : ℚ) ^ e :=
        mul_le_mul_of_nonneg_right c2 (le_of_lt h2)
      rw [zpow_add₀ (by norm_num : (2 : ℚ) ≠ 0), zpow_natCast]
      have c4 : (2 : ℚ) ^ (128 : Int) = 2 * 2 ^ 127 := by norm_cast
      rw [c4]
      linarith
    exact (zpow_lt_zpow_iff_right₀ (by norm_num : (1 : ℚ) < 2)).mp c1
  obtain ⟨E, hE⟩ : ∃ E : Nat, (E : Int) = (bitLen n : Int) + e + 125 :=
    ⟨((bitLen n : Int) + e + 125).toNat, by omega⟩
  obtain ⟨r1, r2, r3, _, _⟩ := roundMag_spec n e E hnpos hE (by omega)
  rw [hf, hD]
  exact ⟨r1, r2, r3⟩

end FastSqrt


namespace FastSqrt

/-! ## Soundness of the interval checks -/

theorem blockOk_sound (C L H a b : Nat) (h : blockOk C L H a b = true) (k r : Nat)
    (hak : a ≤ k) (hkb : k ≤ b) (hr : r ≤ 1) :
    L ≤ (8388608 + 2 * k + r) * (C - k) ^ 2 ∧ (8388608 + 2 * k + r) * (C - k) ^ 2 ≤ H := by
  simp only [blockOk, Bool.and_eq_true, decide_eq_true_eq] at h
  obtain ⟨⟨h1, h2⟩, h3⟩ := h
  norm_num at h2 h3
  constructor
  · calc L ≤ (8388608 + 2 * a) * (C - b) ^ 2 := h2
      _ ≤ (8388608 + 2 * k + r) * (C - k) ^ 2 :=
        Nat.mul_le_mul (by omega) (Nat.pow_le_pow_left (by omega) 2)
  · calc (8388608 + 2 * k + r) * (C - k) ^ 2
        ≤ (8388608 + 2 * b + 1) * (C - a) ^ 2 :=
          Nat.mul_le_mul (by omega) (Nat.pow_le_pow_left (by omega) 2)
      _ ≤ H := h3

theorem blocksOk_sound (C L H s kEnd : Nat) : ∀ n a : Nat, blocksOk C L H s kEnd n a = true →
    ∀ k r : Nat, a ≤ k → k ≤ kEnd → r ≤ 1 →
    L ≤ (8388608 + 2 * k + r) * (C - k) ^ 2 ∧ (8388608 + 2 * k + r) * (C - k) ^ 2 ≤ H := by
  intro n
  induction n with
  | zero =>
    intro a h k r hak hk hr
    simp only [blocksOk, decide_eq_true_eq] at h
    omega
  | succ n ih =>
    intro a h k r hak hk hr
    simp only [blocksOk, Bool.and_eq_true] at h
    obtain ⟨h1, h2⟩ := h
    rcases Nat.lt_or_ge (min (a + s) kEnd) k with hlt | hge
    · exact ih _ h2 k r (by omega) hk hr
    · exact blockOk_sound C L H a _ h1 k r hak hge hr

set_option maxRecDepth 100000 in
theorem blocks_v1_A : blocksOk (8388608 + 3627487) (931 * 2 ^ 70 / 1000 + 1) (1071 * 2 ^ 70 / 1000)
    8191 3627487 443 0 = true := by decide

set_option maxRecDepth 100000 in
theorem blocks_v1_B : blocksOk (16777216 + 3627487) (931 * 2 ^ 72 / 1000 + 1) (1071 * 2 ^ 72 / 1000)
    8191 4194303 70 3627488 = true := by decide

set_option maxRecDepth 100000 in
theorem blocks_v1_C : blocksOk (8388608 + 4194304 + 3627487) (931 * 2 ^ 71 / 1000 + 1)
    (1071 * 2 ^ 71 / 1000) 8191 4194303 512 0 = true := by decide

set_option maxRecDepth 100000 in
theorem blocks_v2_A : blocksOk (8388608 + 2097145) (749 * 2 ^ 70 / 1000 + 1) (845 * 2 ^ 70 / 1000)
    8191 2097145 256 0 = true := by decide

set_option maxRecDepth 100000 in
theorem blocks_v2_B : blocksOk (16777216 + 2097145) (749 * 2 ^ 72 / 1000 + 1) (845 * 2 ^ 72 / 1000)
    8191 4194303 257 2097146 = true := by decide

set_option maxRecDepth 100000 in
theorem blocks_v2_C : blocksOk (8388608 + 4194304 + 2097145) (749 * 2 ^ 71 / 1000 + 1)
    (845 * 2 ^ 71 / 1000) 8191 4194303 512 0 = true := by decide

/-! ## The initial estimate: exponent field and relative accuracy -/

theorem ratio_of_nat_bounds (P L H sh : Nat) (lo hi : ℚ) (h1 : L ≤ P) (h2 : P ≤ H)
    (hl : lo * 2 ^ sh ≤ (L : ℚ)) (hh : (H : ℚ) ≤ hi * 2 ^ sh) :
    lo ≤ (P : ℚ) / 2 ^ sh ∧ (P : ℚ) / 2 ^ sh ≤ hi := by
  have hp : (0 : ℚ) < 2 ^ sh := by positivity
  have q1 : (L : ℚ) ≤ (P : ℚ) := by exact_mod_cast h1
  have q2 : (P : ℚ) ≤ (H : ℚ) := by exact_mod_cast h2
  constructor
  · rw [le_div_iff₀ hp]
    linarith
  · rw [div_le_iff₀ hp]
    linarith

/-- The product `x * y ^ 2` of a value with exponent `2 * a` (times `c`) and a
squared value with exponent `Ey`, when `a + Ey` is known. -/
theorem xy2_formula (A B : ℚ) (a Ey N : Nat) (c : ℚ) (hN : a + Ey = N) :
    (A * ((2 : ℚ) ^ (2 * a) * c) / 2 ^ 150) * (B * (2 : ℚ) ^ Ey / 2 ^ 150) ^ 2
      = A * B ^ 2 * c * (2 ^ N) ^ 2 / 2 ^ 450 := by
  have h : (2 : ℚ) ^ (2 * a) * ((2 : ℚ) ^ Ey) ^ 2 = (2 ^ N) ^ 2 := by
    rw [← hN, pow_add, mul_pow, pow_mul']
  linear_combination (A * B ^ 2 * c / 2 ^ 450) * h

/-- For a magic constant `190 * 2 ^ 23 + μ` with `μ < 2 ^ 22`, the estimate
`y = magic - (i >> 1)` of a positive normal `i` is positive normal, the
exponent fields satisfy `378 ≤ E i + 2 * E y ≤ 380`, and `x * y ^ 2` lies
within the bounds established by the interval checks of the three pieces. -/
theorem estimate_range (μ LA HA LB HB LC HC : Nat) (lo hi : ℚ) (hμ : μ < 4194304)
    (hA : ∀ k r : Nat, 0 ≤ k → k ≤ μ → r ≤ 1 →
      LA ≤ (8388608 + 2 * k + r) * (8388608 + μ - k) ^ 2 ∧
      (8388608 + 2 * k + r) * (8388608 + μ - k) ^ 2 ≤ HA)
    (hB : ∀ k r : Nat, μ + 1 ≤ k → k ≤ 4194303 → r ≤ 1 →
      LB ≤ (8388608 + 2 * k + r) * (16777216 + μ - k) ^ 2 ∧
      (8388608 + 2 * k + r) * (16777216 + μ - k) ^ 2 ≤ HB)
    (hC : ∀ k r : Nat, 0 ≤ k → k ≤ 4194303 → r ≤ 1 →
      LC ≤ (8388608 + 2 * k + r) * (8388608 + 4194304 + μ - k) ^ 2 ∧
      (8388608 + 2 * k + r) * (8388608 + 4194304 + μ - k) ^ 2 ≤ HC)
    (lA : lo * 2 ^ 70 ≤ (LA : ℚ)) (uA : (HA : ℚ) ≤ hi * 2 ^ 70)
    (lB : lo * 2 ^ 72 ≤ (LB : ℚ)) (uB : (HB : ℚ) ≤ hi * 2 ^ 72)
    (lC : lo * 2 ^ 71 ≤ (LC : ℚ)) (uC : (HC : ℚ) ≤ hi * 2 ^ 71)
    (i y : Nat) (h : isPosNormal i) (hy : y = 190 * 8388608 + μ - i / 2) :
    isPosNormal y ∧ 378 ≤ expField i + 2 * expField y ∧ expField i + 2 * expField y ≤ 380 ∧
    lo ≤ floatVal i * floatVal y ^ 2 ∧ floatVal i * floatVal y ^ 2 ≤ hi := by
  obtain ⟨e, k, r, hi', hr, hk, he1, he2⟩ := posNormal_decomp i h
  have hEx : expField i = e := by
    rw [(posNormal_expField i h).1, hi']
    norm_num
    omega
  have hX : floatVal i = (8388608 + ((2 * k + r : Nat) : ℚ)) * (2 : ℚ) ^ e / 2 ^ 150 := by
    rw [hi']
    exact floatVal_fields_nat e (2 * k + r) he1 he2 (by omega)
  rcases Nat.even_or_odd' e with ⟨a, ha | ha⟩
  · rcases Nat.lt_or_ge μ k with hlt | hge
    · -- piece B
      obtain ⟨Ey, hEy⟩ : ∃ Ey : Nat, Ey + a = 189 := ⟨189 - a, by omega⟩
      obtain ⟨j, hj⟩ : ∃ j : Nat, j + k = 8388608 + μ := ⟨8388608 + μ - k, by omega⟩
      have hy2 : y = Ey * 8388608 + j := by omega
      have hn : isPosNormal y := posNormal_of_bounds _ (by omega) (by omega)
      have hEy2 : expField y = Ey := by
        rw [(posNormal_expField y hn).1, hy2]
        norm_num
        omega
      have hY : floatVal y = (8388608 + (j : ℚ)) * (2 : ℚ) ^ Ey / 2 ^ 150 := by
        rw [hy2]
        exact floatVal_fields_nat Ey j (by omega) (by omega) (by omega)
      refine ⟨hn, by omega, by omega, ?_⟩
      obtain ⟨p1, p2⟩ := hB k r (by omega) hk hr
      have hc : 16777216 + μ - k = 8388608 + j := by omega
      rw [hc] at p1 p2
      have hv : floatVal i * floatVal y ^ 2
          = (((8388608 + 2 * k + r) * (8388608 + j) ^ 2 : Nat) : ℚ) / 2 ^ 72 := by
        have hf := xy2_formula (8388608 + ((2 * k + r : Nat) : ℚ)) (8388608 + (j : ℚ)) a Ey 189 1
          (by omega)
        rw [mul_one] at hf
        rw [hX, hY, ha, hf]
        push_cast
        norm_num
        ring
      rw [hv]
      exact ratio_of_nat_bounds _ LB HB 72 lo hi p1 p2 lB uB
    · -- piece A
      obtain ⟨Ey, hEy⟩ : ∃ Ey : Nat, Ey + a = 190 := ⟨190 - a, by omega⟩
      obtain ⟨j, hj⟩ : ∃ j : Nat, j + k = μ := ⟨μ - k, by omega⟩
      have hy2 : y = Ey * 8388608 + j := by omega
      have hn : isPosNormal y := posNormal_of_bounds _ (by omega) (by omega)
      have hEy2 : expField y = Ey := by
        rw [(posNormal_expField y hn).1, hy2]
        norm_num
        omega
      have hY : floatVal y = (8388608 + (j : ℚ)) * (2 : ℚ) ^ Ey / 2 ^ 150 := by
        rw [hy2]
        exact floatVal_fields_nat Ey j (by omega) (by omega) (by omega)
      refine ⟨hn, by omega, by omega, ?_⟩
      obtain ⟨p1, p2⟩ := hA k r (by omega) hge hr
      have hc : 8388608 + μ - k = 8388608 + j := by omega
      rw [hc] at p1 p2
      have hv : floatVal i * floatVal y ^ 2
          = (((8388608 + 2 * k + r) * (8388608 + j) ^ 2 : Nat) : ℚ) / 2 ^ 70 := by
        have hf := xy2_formula (8388608 + ((2 * k + r : Nat) : ℚ)) (8388608 + (j : ℚ)) a Ey 190 1
          (by omega)
        rw [mul_one] at hf
        rw [hX, hY, ha, hf]
        push_cast
        norm_num
        ring
      rw [hv]
      exact ratio_of_nat_bounds _ LA HA 70 lo hi p1 p2 lA uA
  · -- piece C
    obtain ⟨Ey, hEy⟩ : ∃ Ey : Nat, Ey + a = 189 := ⟨189 - a, by omega⟩
    obtain ⟨j, hj⟩ : ∃ j : Nat, j + k = 4194304 + μ := ⟨4194304 + μ - k, by omega⟩
    have hy2 : y = Ey * 8388608 + j := by omega
    have hn : isPosNormal y := posNormal_of_bounds _ (by omega) (by omega)
    have hEy2 : expField y = Ey := by
      rw [(posNormal_expField y hn).1, hy2]
      norm_num
      omega
    have hY : floatVal y = (8388608 + (j : ℚ)) * (2 : ℚ) ^ Ey / 2 ^ 150 := by
      rw [hy2]
      exact floatVal_fields_nat Ey j (by omega) (by omega) (by omega)
    refine ⟨hn, by omega, by omega, ?_⟩
    obtain ⟨p1, p2⟩ := hC k r (by omega) hk hr
    have hc : 8388608 + 4194304 + μ - k = 8388608 + j := by omega
    rw [hc] at p1 p2
    have hv : floatVal i * floatVal y ^ 2
        = (((8388608 + 2 * k + r) * (8388608 + j) ^ 2 : Nat) : ℚ) / 2 ^ 71 := by
      have hf := xy2_formula (8388608 + ((2 * k + r : Nat) : ℚ)) (8388608 + (j : ℚ)) a Ey 189 2
        (by omega)
      rw [hX, hY, ha, pow_succ, hf]
      push_cast
      norm_num
      ring
    rw [hv]
    exact ratio_of_nat_bounds _ LC HC 71 lo hi p1 p2 lC uC

/-- The initial estimate of `q_rsqrt`: `0.931 ≤ x * y0 ^ 2 ≤ 1.071`. -/
theorem q_rsqrt_estimate_range (i : Nat) (h : isPosNormal i) :
    isPosNormal (q_rsqrt_estimate i) ∧
    378 ≤ expField i + 2 * expField (q_rsqrt_estimate i) ∧
    expField i + 2 * expField (q_rsqrt_estimate i) ≤ 380 ∧
    (931 / 1000 : ℚ) ≤ floatVal i * floatVal (q_rsqrt_estimate i) ^ 2 ∧
    floatVal i * floatVal (q_rsqrt_estimate i) ^ 2 ≤ (1071 / 1000 : ℚ) := by
  obtain ⟨b1, b2⟩ := posNormal_bounds i h
  have hy : q_rsqrt_estimate i = 190 * 8388608 + 3627487 - i / 2 := by
    have := (estimate_eq i (by norm_num; omega)).1
    norm_num at this ⊢
    exact this
  exact estimate_range 3627487 (931 * 2 ^ 70 / 1000 + 1) (1071 * 2 ^ 70 / 1000)
    (931 * 2 ^ 72 / 1000 + 1) (1071 * 2 ^ 72 / 1000)
    (931 * 2 ^ 71 / 1000 + 1) (1071 * 2 ^ 71 / 1000) (931 / 1000) (1071 / 1000) (by norm_num)
    (fun k r h0 h1 hr => blocksOk_sound _ _ _ _ _ _ _ blocks_v1_A k r h0 h1 hr)
    (fun k r h0 h1 hr => blocksOk_sound _ _ _ _ _ _ _ blocks_v1_B k r h0 h1 hr)
    (fun k r h0 h1 hr => blocksOk_sound _ _ _ _ _ _ _ blocks_v1_C k r h0 h1 hr)
    (by norm_num) (by norm_num) (by norm_num) (by norm_num) (by norm_num) (by norm_num)
    i _ h hy

/-- The initial estimate of `q_rsqrt_v2_more_precise`:
`0.749 ≤ x * y0 ^ 2 ≤ 0.845`. -/
theorem q_rsqrt_v2_estimate_range (i : Nat) (h : isPosNormal i) :
    isPosNormal (q_rsqrt_v2_estimate i) ∧
    378 ≤ expField i + 2 * expField (q_rsqrt_v2_estimate i) ∧
    expField i + 2 * expField (q_rsqrt_v2_estimate i) ≤ 380 ∧
    (749 / 1000 : ℚ) ≤ floatVal i * floatVal (q_rsqrt_v2_estimate i) ^ 2 ∧
    floatVal i * floatVal (q_rsqrt_v2_estimate i) ^ 2 ≤ (845 / 1000 : ℚ) := by
  obtain ⟨b1, b2⟩ := posNormal_bounds i h
  have hy : q_rsqrt_v2_estimate i = 190 * 8388608 + 2097145 - i / 2 := by
    have := (estimate_eq i (by norm_num; omega)).2
    norm_num at this ⊢
    exact this
  exact estimate_range 2097145 (749 * 2 ^ 70 / 1000 + 1) (845 * 2 ^ 70 / 1000)
    (749 * 2 ^ 72 / 1000 + 1) (845 * 2 ^ 72 / 1000)
    (749 * 2 ^ 71 / 1000 + 1) (845 * 2 ^ 71 / 1000) (749 / 1000) (845 / 1000) (by norm_num)
    (fun k r h0 h1 hr => blocksOk_sound _ _ _ _ _ _ _ blocks_v2_A k r h0 h1 hr)
    (fun k r h0 h1 hr => blocksOk_sound _ _ _ _ _ _ _ blocks_v2_B k r h0 h1 hr)
    (fun k r h0 h1 hr => blocksOk_sound _ _ _ _ _ _ _ blocks_v2_C k r h0 h1 hr)
    (by norm_num) (by norm_num) (by norm_num) (by norm_num) (by norm_num) (by norm_num)
    i _ h hy

end FastSqrt


namespace FastSqrt

/-! ## Arithmetic of the refinement steps -/

/-- A rounded product, with the first factor enclosed in an interval. -/
theorem round_mul_bounds (P Q lo hi T : ℚ) (hQ : 0 ≤ Q) (hlo : lo ≤ P) (hhi : P ≤ hi)
    (t1 : P * Q * (1 - 1 / 2 ^ 24) ≤ T) (t2 : T ≤ P * Q * (1 + 1 / 2 ^ 24)) :
    lo * Q * (1 - 1 / 2 ^ 24) ≤ T ∧ T ≤ hi * Q * (1 + 1 / 2 ^ 24) := by
  have h1 : lo * Q ≤ P * Q := mul_le_mul_of_nonneg_right hlo hQ
  have h2 : P * Q ≤ hi * Q := mul_le_mul_of_nonneg_right hhi hQ
  have u1 : (0 : ℚ) ≤ 1 - 1 / 2 ^ 24 := by norm_num
  have u2 : (0 : ℚ) ≤ 1 + 1 / 2 ^ 24 := by norm_num
  have h3 := mul_le_mul_of_nonneg_right h1 u1
  have h4 := mul_le_mul_of_nonneg_right h2 u2
  constructor <;> linarith

/-- The polynomial of the Newton step: `v * (3/2 - v/2 - δ) ^ 2` is at least
`0.998 ^ 2` for `0.931 ≤ v ≤ 1.071`. -/
theorem newton_poly_lo (v : ℚ) (h1 : 931 / 1000 ≤ v) (h2 : v ≤ 1071 / 1000) :
    (998 / 1000 : ℚ) ^ 2 ≤ v * (3 / 2 - v / 2 - 3 / 10 ^ 7) ^ 2 := by
  have hsq : (1 - v) ^ 2 ≤ 505 / 100000 := by nlinarith [mul_nonneg (sub_nonneg.mpr h1) (sub_nonneg.mpr h2)]
  have h4 : (0 : ℚ) ≤ 4 - v := by linarith
  have hc := mul_nonneg (sub_nonneg.mpr hsq) h4
  nlinarith [hc]

theorem newton_poly_hi (v : ℚ) (h2 : v ≤ 1071 / 1000) :
    v * (3 / 2 - v / 2 + 3 / 10 ^ 7) ^ 2 ≤ (1002 / 1000 : ℚ) ^ 2 := by
  have h4 : (0 : ℚ) ≤ 4 - v := by linarith
  have hc := mul_nonneg (sq_nonneg (1 - v)) h4
  nlinarith [hc]

/-- From a result `R` enclosed between `Y * A` and `Y * B` to the enclosure of
`R ^ 2 * X` between `v * A ^ 2` and `v * B ^ 2`, where `v = X * Y ^ 2`. -/
theorem sq_mul_bounds (X Y A B R : ℚ) (hX : 0 < X) (hY : 0 < Y) (hA : 0 < A)
    (r1 : Y * A ≤ R) (r2 : R ≤ Y * B) :
    0 < R ∧ X * Y ^ 2 * A ^ 2 ≤ R ^ 2 * X ∧ R ^ 2 * X ≤ X * Y ^ 2 * B ^ 2 := by
  have hYA : 0 < Y * A := mul_pos hY hA
  have hR : 0 < R := lt_of_lt_of_le hYA r1
  have s1 : (Y * A) ^ 2 ≤ R ^ 2 := pow_le_pow_left₀ (le_of_lt hYA) r1 2
  have s2 : R ^ 2 ≤ (Y * B) ^ 2 := pow_le_pow_left₀ (le_of_lt hR) r2 2
  have s3 := mul_le_mul_of_nonneg_right s1 (le_of_lt hX)
  have s4 := mul_le_mul_of_nonneg_right s2 (le_of_lt hX)
  refine ⟨hR, ?_, ?_⟩
  · calc X * Y ^ 2 * A ^ 2 = (Y * A) ^ 2 * X := by ring
      _ ≤ R ^ 2 * X := s3
  · calc R ^ 2 * X ≤ (Y * B) ^ 2 * X := s4
      _ = X * Y ^ 2 * B ^ 2 := by ring

/-- The last two operations of `q_rsqrt` in rational arithmetic: from the
enclosure of `t3 ≈ x * y ^ 2 / 2` within the relative distance `5 * 2 ^ (-24)`, of the rounded difference `t4` and of the
rounded product `r`, the squared result times `x` is within
`[0.998 ^ 2, 1.002 ^ 2]`. -/
theorem newton_final (X Y T3 T4 R : ℚ) (hX : 0 < X) (hY : 0 < Y)
    (v1 : 931 / 1000 ≤ X * Y ^ 2) (v2 : X * Y ^ 2 ≤ 1071 / 1000)
    (a1 : X * Y ^ 2 / 2 * (1 - 5 / 2 ^ 24) ≤ T3)
    (a2 : T3 ≤ X * Y ^ 2 / 2 * (1 + 5 / 2 ^ 24))
    (b1 : (3 / 2 - T3) * (1 - 1 / 2 ^ 24) ≤ T4) (b2 : T4 ≤ (3 / 2 - T3) * (1 + 1 / 2 ^ 24))
    (c1 : Y * T4 * (1 - 1 / 2 ^ 24) ≤ R) (c2 : R ≤ Y * T4 * (1 + 1 / 2 ^ 24)) :
    0 < R ∧ (998 / 1000 : ℚ) ^ 2 ≤ R ^ 2 * X ∧ R ^ 2 * X ≤ (1002 / 1000 : ℚ) ^ 2 ∧
    Y * (3 / 2 - X * Y ^ 2 / 2 - 3 / 10 ^ 7) ≤ R ∧
    R ≤ Y * (3 / 2 - X * Y ^ 2 / 2 + 3 / 10 ^ 7) := by
  obtain ⟨v, hv⟩ : ∃ v : ℚ, X * Y ^ 2 = v := ⟨_, rfl⟩
  rw [hv] at v1 v2 a1 a2
  norm_num at a1 a2 b1 b2 c1 c2
  have d1 : 3 / 2 - v / 2 - 3 / 10 ^ 7 ≤ T4 * (16777215 / 16777216) := by linarith
  have d2 : T4 * (16777217 / 16777216) ≤ 3 / 2 - v / 2 + 3 / 10 ^ 7 := by linarith
  have hA : (0 : ℚ) < 3 / 2 - v / 2 - 3 / 10 ^ 7 := by linarith
  have r1 : Y * (3 / 2 - v / 2 - 3 / 10 ^ 7) ≤ R := by
    have := mul_le_mul_of_nonneg_left d1 (le_of_lt hY)
    linarith
  have r2 : R ≤ Y * (3 / 2 - v / 2 + 3 / 10 ^ 7) := by
    have := mul_le_mul_of_nonneg_left d2 (le_of_lt hY)
    linarith
  obtain ⟨s0, s1, s2⟩ := sq_mul_bounds X Y _ _ R hX hY hA r1 r2
  rw [hv] at s1 s2
  have p1 := newton_poly_lo v v1 v2
  have p2 := newton_poly_hi v v2
  rw [hv]
  exact ⟨s0, le_trans p1 s1, le_trans s2 p2, r1, r2⟩

/-! ## The constants of the source -/

theorem floatVal_half : floatVal 0x3F000000 = 1 / 2 := by
  have h := floatVal_fields_nat 126 0 (by norm_num) (by norm_num) (by norm_num)
  norm_num at h
  exact h

theorem c0_5_spec : isPosNormal c0_5 ∧ floatVal c0_5 = 1 / 2 ∧ expField c0_5 = 126 :=
  ⟨by decide, floatVal_half, by decide⟩

theorem c1_5_spec : isPosNormal c1_5 ∧ floatVal c1_5 = 3 / 2 := by
  refine ⟨by decide, ?_⟩
  have h := floatVal_fields_nat 127 4194304 (by norm_num) (by norm_num) (by norm_num)
  norm_num at h
  unfold c1_5
  exact h

/-- A positive normal float in `[1/2, 2)` has exponent field 126 or 127. -/
theorem expField_of_value (p : Nat) (hp : isPosNormal p) (h1 : 1 / 2 ≤ floatVal p)
    (h2 : floatVal p < 2) : 126 ≤ expField p ∧ expField p ≤ 127 := by
  have g1 : 0x3F000000 ≤ p := by
    rw [← floatVal_half] at h1
    exact (floatVal_le_iff _ _ (by decide) hp).mp h1
  have g2 : p < 0x40000000 := by
    by_contra hc
    push_neg at hc
    have := floatVal_le _ _ (by decide) hp hc
    rw [floatVal_two] at this
    linarith
  rw [(posNormal_expField p hp).1]
  norm_num at g1 g2 ⊢
  omega

/-! ## The accuracy of `q_rsqrt` -/

/-- The first three products of `q_rsqrt`, `t3 = number * 0.5F * y * y`, for a
positive normal input and a positive normal `y` with
`378 ≤ E number + 2 * E y ≤ 380`: the result is positive normal and within the
relative distance `5 * 2 ^ (-24)` of `x * y ^ 2 / 2`.  For an input of the
smallest binade the first product is subnormal and loses one more bit. -/
theorem q_rsqrt_t3 (i y : Nat) (h : isPosNormal i) (hy : isPosNormal y)
    (e1 : 378 ≤ expField i + 2 * expField y) (e2 : expField i + 2 * expField y ≤ 380) :
    isPosNormal (fmul (fmul (fmul i c0_5) y) y) ∧
    floatVal i * floatVal y ^ 2 / 2 * (1 - 5 / 2 ^ 24)
      ≤ floatVal (fmul (fmul (fmul i c0_5) y) y) ∧
    floatVal (fmul (fmul (fmul i c0_5) y) y)
      ≤ floatVal i * floatVal y ^ 2 / 2 * (1 + 5 / 2 ^ 24) := by
  have hX := floatVal_pos i h
  have hY := floatVal_pos _ hy
  have hv0 : 0 ≤ floatVal i * floatVal y ^ 2 / 2 := by positivity
  obtain ⟨b1, b2⟩ := posNormal_bounds i h
  have hEq : expField i = i / 8388608 := by
    rw [(posNormal_expField i h).1]
    norm_num
  rcases Nat.lt_or_ge i 16777216 with hsmall | hbig
  · -- the smallest binade: t1 is subnormal
    have hEx : expField i = 1 := by rw [hEq]; omega
    obtain ⟨s1, s2, l1, u1⟩ := fmul_half_small i h hsmall
    generalize fmul i c0_5 = t1 at s1 s2 l1 u1
    obtain ⟨n2, l2, u2, f2, g2⟩ := fmul_small_spec t1 y s1 s2 hy (by omega)
    obtain ⟨l2', u2'⟩ := round_mul_bounds ((t1 : ℚ) / 2 ^ 149) (floatVal y) _ _ _ (le_of_lt hY)
      l1 u1 l2 u2
    generalize fmul t1 y = t2 at n2 l2 u2 f2 g2 l2' u2'
    obtain ⟨n3, l3, u3, f3, g3⟩ := fmul_spec t2 y n2 hy (by omega) (by omega)
    obtain ⟨l3', u3'⟩ := round_mul_bounds (floatVal t2) (floatVal y) _ _ _ (le_of_lt hY)
      l2' u2' l3 u3
    refine ⟨n3, ?_, ?_⟩
    · calc floatVal i * floatVal y ^ 2 / 2 * (1 - 5 / 2 ^ 24)
          ≤ floatVal i * floatVal y ^ 2 / 2
              * ((1 - 1 / 2 ^ 23) * (1 - 1 / 2 ^ 24) * (1 - 1 / 2 ^ 24)) :=
            mul_le_mul_of_nonneg_left (by norm_num) hv0
        _ = floatVal i * (1 / 2) * (1 - 1 / 2 ^ 23) * floatVal y * (1 - 1 / 2 ^ 24) * floatVal y
              * (1 - 1 / 2 ^ 24) := by ring
        _ ≤ floatVal (fmul t2 y) := l3'
    · calc floatVal (fmul t2 y)
          ≤ floatVal i * (1 / 2) * (1 + 1 / 2 ^ 23) * floatVal y * (1 + 1 / 2 ^ 24) * floatVal y
              * (1 + 1 / 2 ^ 24) := u3'
        _ = floatVal i * floatVal y ^ 2 / 2
              * ((1 + 1 / 2 ^ 23) * (1 + 1 / 2 ^ 24) * (1 + 1 / 2 ^ 24)) := by ring
        _ ≤ floatVal i * floatVal y ^ 2 / 2 * (1 + 5 / 2 ^ 24) :=
            mul_le_mul_of_nonneg_left (by norm_num) hv0
  · -- exponent field at least 2: every product is normal
    have hEx1 : 2 ≤ expField i := by rw [hEq]; omega
    have hEx2 : expField i ≤ 254 := by rw [hEq]; omega
    obtain ⟨n1, l1, u1, f1, g1⟩ := fmul_half_spec i h hEx1
    generalize fmul i c0_5 = t1 at n1 l1 u1 f1 g1
    obtain ⟨n2, l2, u2, f2, g2⟩ := fmul_spec t1 y n1 hy (by omega) (by omega)
    obtain ⟨l2', u2'⟩ := round_mul_bounds (floatVal t1) (floatVal y) _ _ _ (le_of_lt hY)
      l1 u1 l2 u2
    generalize fmul t1 y = t2 at n2 l2 u2 f2 g2 l2' u2'
    obtain ⟨n3, l3, u3, f3, g3⟩ := fmul_spec t2 y n2 hy (by omega) (by omega)
    obtain ⟨l3', u3'⟩ := round_mul_bounds (floatVal t2) (floatVal y) _ _ _ (le_of_lt hY)
      l2' u2' l3 u3
    refine ⟨n3, ?_, ?_⟩
    · calc floatVal i * floatVal y ^ 2 / 2 * (1 - 5 / 2 ^ 24)
          ≤ floatVal i * floatVal y ^ 2 / 2
              * ((1 - 1 / 2 ^ 24) * (1 - 1 / 2 ^ 24) * (1 - 1 / 2 ^ 24)) :=
            mul_le_mul_of_nonneg_left (by norm_num) hv0
        _ = floatVal i * (1 / 2) * (1 - 1 / 2 ^ 24) * floatVal y * (1 - 1 / 2 ^ 24) * floatVal y
              * (1 - 1 / 2 ^ 24) := by ring
        _ ≤ floatVal (fmul t2 y) := l3'
    · calc floatVal (fmul t2 y)
          ≤ floatVal i * (1 / 2) * (1 + 1 / 2 ^ 24) * floatVal y * (1 + 1 / 2 ^ 24) * floatVal y
              * (1 + 1 / 2 ^ 24) := u3'
        _ = floatVal i * floatVal y ^ 2 / 2
              * ((1 + 1 / 2 ^ 24) * (1 + 1 / 2 ^ 24) * (1 + 1 / 2 ^ 24)) := by ring
        _ ≤ floatVal i * floatVal y ^ 2 / 2 * (1 + 5 / 2 ^ 24) :=
            mul_le_mul_of_nonneg_left (by norm_num) hv0

/-- For every positive normal input, the result `r` of `q_rsqrt` is positive,
`0.998 ^ 2 ≤ r ^ 2 * x ≤ 1.002 ^ 2`, and `r` is within `3e-7 * y0` of the
refinement step evaluated without rounding. -/
theorem q_rsqrt_bounds (i : Nat) (h : isPosNormal i) :
    isPosNormal (q_rsqrt i) ∧ 0 < floatVal (q_rsqrt i) ∧
    (998 / 1000 : ℚ) ^ 2 ≤ floatVal (q_rsqrt i) ^ 2 * floatVal i ∧
    floatVal (q_rsqrt i) ^ 2 * floatVal i ≤ (1002 / 1000 : ℚ) ^ 2 ∧
    floatVal (q_rsqrt_estimate i)
      * (3 / 2 - floatVal i * floatVal (q_rsqrt_estimate i) ^ 2 / 2 - 3 / 10 ^ 7)
      ≤ floatVal (q_rsqrt i) ∧
    floatVal (q_rsqrt i) ≤ floatVal (q_rsqrt_estimate i)
      * (3 / 2 - floatVal i * floatVal (q_rsqrt_estimate i) ^ 2 / 2 + 3 / 10 ^ 7) := by
  obtain ⟨hy, e1, e2, v1, v2⟩ := q_rsqrt_estimate_range i h
  obtain ⟨hd, vd⟩ := c1_5_spec
  have hX := floatVal_pos i h
  have hY := floatVal_pos _ hy
  obtain ⟨hEx1, hEx2⟩ : 1 ≤ expField i ∧ expField i ≤ 254 := by
    obtain ⟨_, _, _, _, _, g1, g2⟩ := posNormal_sig i h
    exact ⟨g1, g2⟩
  simp only [q_rsqrt]
  generalize q_rsqrt_estimate i = y at hy e1 e2 v1 v2 hY
  -- t3 = number * 0.5F * y * y
  obtain ⟨n3, a1, a2⟩ := q_rsqrt_t3 i y h hy e1 e2
  generalize fmul (fmul (fmul i c0_5) y) y = t3 at n3 a1 a2
  -- t4 = 1.5F - t3
  have k1 : (46 / 100 : ℚ) ≤ floatVal t3 := by
    have : (931 / 1000 : ℚ) / 2 * (1 - 5 / 2 ^ 24)
        ≤ floatVal i * floatVal y ^ 2 / 2 * (1 - 5 / 2 ^ 24) :=
      mul_le_mul_of_nonneg_right (by linarith) (by norm_num)
    norm_num at this a1 ⊢
    linarith
  have k2 : floatVal t3 ≤ (54 / 100 : ℚ) := by
    have : floatVal i * floatVal y ^ 2 / 2 * (1 + 5 / 2 ^ 24)
        ≤ (1071 / 1000 : ℚ) / 2 * (1 + 5 / 2 ^ 24) :=
      mul_le_mul_of_nonneg_right (by linarith) (by norm_num)
    norm_num at this a2 ⊢
    linarith
  obtain ⟨n4, l4, u4⟩ := fsub_spec c1_5 t3 hd n3 (by rw [vd]; norm_num; linarith)
    (by rw [vd]; norm_num; linarith)
  rw [vd] at l4 u4
  have k3 : (1 / 2 : ℚ) ≤ floatVal (fsub c1_5 t3) := by
    norm_num at l4 ⊢
    linarith
  have k4 : floatVal (fsub c1_5 t3) < 2 := by
    norm_num at u4 ⊢
    linarith
  obtain ⟨f4, g4⟩ := expField_of_value _ n4 k3 k4
  generalize fsub c1_5 t3 = t4 at n4 l4 u4 k3 k4 f4 g4
  -- result = y * t4
  obtain ⟨n5, l5, u5, _, _⟩ := fmul_spec y t4 hy n4 (by omega) (by omega)
  obtain ⟨r0, r1, r2, r3, r4⟩ := newton_final (floatVal i) (floatVal y) (floatVal t3)
    (floatVal t4) (floatVal (fmul y t4)) hX hY v1 v2 a1 a2 l4 u4 l5 u5
  exact ⟨n5, r0, r1, r2, r3, r4⟩

end FastSqrt


namespace FastSqrt

/-! ## The accuracy of `q_rsqrt_v2_more_precise` -/

theorem c0_703952253_spec : isPosNormal c0_703952253 ∧
    floatVal c0_703952253 = 11810359 / 16777216 ∧ expField c0_703952253 = 126 := by
  refine ⟨by decide, ?_, by decide⟩
  have h := floatVal_fields_nat 126 3421751 (by norm_num) (by norm_num) (by norm_num)
  norm_num at h
  unfold c0_703952253
  exact h

theorem c2_38924456_spec : isPosNormal c2_38924456 ∧
    floatVal c2_38924456 = 10021218 / 4194304 := by
  refine ⟨by decide, ?_⟩
  have h := floatVal_fields_nat 128 1632610 (by norm_num) (by norm_num) (by norm_num)
  norm_num at h
  unfold c2_38924456
  rw [h]
  norm_num

/-- The patterns of the two tuned constants denote the binary32 numbers
nearest to the decimal literals of the source: the distance is below half a
unit in the last place. -/
theorem tuned_constants_nearest :
    |floatVal c0_703952253 - 703952253 / 10 ^ 9| < 1 / 2 ^ 25 ∧
    |floatVal c2_38924456 - 238924456 / 10 ^ 8| < 1 / 2 ^ 23 := by
  rw [c0_703952253_spec.2.1, c2_38924456_spec.2]
  constructor <;> rw [abs_lt] <;> constructor <;> norm_num

theorem kadlec_poly_lo (v : ℚ) (h1 : 749 / 1000 ≤ v) (h2 : v ≤ 845 / 1000) :
    (999 / 1000 : ℚ) ^ 2
      ≤ v * ((11810359 / 16777216) * ((10021218 / 4194304) - v) - 3 / 10 ^ 7) ^ 2 := by
  have p2 := mul_nonneg (sub_nonneg.mpr h1) (sub_nonneg.mpr h2)
  have p3 := mul_nonneg p2 (by linarith : (0 : ℚ) ≤ 3 - v)
  nlinarith [p2, p3]

theorem kadlec_poly_hi (v : ℚ) (h1 : 749 / 1000 ≤ v) (h2 : v ≤ 845 / 1000) :
    v * ((11810359 / 16777216) * ((10021218 / 4194304) - v) + 3 / 10 ^ 7) ^ 2
      ≤ (1001 / 1000 : ℚ) ^ 2 := by
  have p1 := mul_nonneg (sq_nonneg (v - 7964 / 10000)) (by linarith : (0 : ℚ) ≤ 3 - v)
  have p2 := mul_nonneg (sub_nonneg.mpr h1) (sub_nonneg.mpr h2)
  nlinarith [p1, p2, sq_nonneg (v - 7964 / 10000)]

/-- The last three operations of `q_rsqrt_v2_more_precise` in rational
arithmetic. -/
theorem kadlec_final (X Y T2 T3 T4 R : ℚ) (hX : 0 < X) (hY : 0 < Y)
    (v1 : 749 / 1000 ≤ X * Y ^ 2) (v2 : X * Y ^ 2 ≤ 845 / 1000)
    (a1 : X * Y ^ 2 * (1 - 1 / 2 ^ 24) ^ 2 ≤ T2)
    (a2 : T2 ≤ X * Y ^ 2 * (1 + 1 / 2 ^ 24) ^ 2)
    (b1 : (10021218 / 4194304 - T2) * (1 - 1 / 2 ^ 24) ≤ T3)
    (b2 : T3 ≤ (10021218 / 4194304 - T2) * (1 + 1 / 2 ^ 24))
    (c1 : 11810359 / 16777216 * T3 * (1 - 1 / 2 ^ 24) ≤ T4)
    (c2 : T4 ≤ 11810359 / 16777216 * T3 * (1 + 1 / 2 ^ 24))
    (d1 : Y * T4 * (1 - 1 / 2 ^ 24) ≤ R) (d2 : R ≤ Y * T4 * (1 + 1 / 2 ^ 24)) :
    0 < R ∧ (999 / 1000 : ℚ) ^ 2 ≤ R ^ 2 * X ∧ R ^ 2 * X ≤ (1001 / 1000 : ℚ) ^ 2 ∧
    Y * ((11810359 / 16777216) * ((10021218 / 4194304) - X * Y ^ 2) - 3 / 10 ^ 7) ≤ R ∧
    R ≤ Y * ((11810359 / 16777216) * ((10021218 / 4194304) - X * Y ^ 2) + 3 / 10 ^ 7) := by
  obtain ⟨v, hv⟩ : ∃ v : ℚ, X * Y ^ 2 = v := ⟨_, rfl⟩
  rw [hv] at v1 v2 a1 a2
  norm_num at a1 a2 b1 b2 c1 c2 d1 d2
  have e1 : (11810359 / 16777216) * ((10021218 / 4194304) - v) - 3 / 10 ^ 7
      ≤ T4 * (16777215 / 16777216) := by linarith
  have e2 : T4 * (16777217 / 16777216)
      ≤ (11810359 / 16777216) * ((10021218 / 4194304) - v) + 3 / 10 ^ 7 := by linarith
  have hA : (0 : ℚ) < (11810359 / 16777216) * ((10021218 / 4194304) - v) - 3 / 10 ^ 7 := by
    linarith
  have r1 : Y * ((11810359 / 16777216) * ((10021218 / 4194304) - v) - 3 / 10 ^ 7) ≤ R := by
    have := mul_le_mul_of_nonneg_left e1 (le_of_lt hY)
    linarith
  have r2 : R ≤ Y * ((11810359 / 16777216) * ((10021218 / 4194304) - v) + 3 / 10 ^ 7) := by
    have := mul_le_mul_of_nonneg_left e2 (le_of_lt hY)
    linarith
  obtain ⟨s0, s1, s2⟩ := sq_mul_bounds X Y _ _ R hX hY hA r1 r2
  rw [hv] at s1 s2
  have p1 := kadlec_poly_lo v v1 v2
  have p2 := kadlec_poly_hi v v1 v2
  rw [hv]
  exact ⟨s0, le_trans p1 s1, le_trans s2 p2, r1, r2⟩

/-- For every positive normal input, the result `r` of
`q_rsqrt_v2_more_precise` is positive, `0.999 ^ 2 ≤ r ^ 2 * x ≤ 1.001 ^ 2`, and
`r` is within `3e-7 * y0` of the refinement step evaluated without rounding. -/
theorem q_rsqrt_v2_bounds (i : Nat) (h : isPosNormal i) :
    isPosNormal (q_rsqrt_v2_more_precise i) ∧ 0 < floatVal (q_rsqrt_v2_more_precise i) ∧
    (999 / 1000 : ℚ) ^ 2 ≤ floatVal (q_rsqrt_v2_more_precise i) ^ 2 * floatVal i ∧
    floatVal (q_rsqrt_v2_more_precise i) ^ 2 * floatVal i ≤ (1001 / 1000 : ℚ) ^ 2 ∧
    floatVal (q_rsqrt_v2_estimate i)
      * ((11810359 / 16777216)
          * ((10021218 / 4194304) - floatVal i * floatVal (q_rsqrt_v2_estimate i) ^ 2)
        - 3 / 10 ^ 7)
      ≤ floatVal (q_rsqrt_v2_more_precise i) ∧
    floatVal (q_rsqrt_v2_more_precise i) ≤ floatVal (q_rsqrt_v2_estimate i)
      * ((11810359 / 16777216)
          * ((10021218 / 4194304) - floatVal i * floatVal (q_rsqrt_v2_estimate i) ^ 2)
        + 3 / 10 ^ 7) := by
  obtain ⟨hy, e1, e2, v1, v2⟩ := q_rsqrt_v2_estimate_range i h
  obtain ⟨hc, vc, ec⟩ := c0_703952253_spec
  obtain ⟨hd, vd⟩ := c2_38924456_spec
  have hX := floatVal_pos i h
  have hY := floatVal_pos _ hy
  obtain ⟨hEx1, hEx2⟩ : 1 ≤ expField i ∧ expField i ≤ 254 := by
    obtain ⟨_, _, _, _, _, g1, g2⟩ := posNormal_sig i h
    exact ⟨g1, g2⟩
  simp only [q_rsqrt_v2_more_precise]
  generalize q_rsqrt_v2_estimate i = y at hy e1 e2 v1 v2 hY
  -- t1 = number * y
  obtain ⟨n1, l1, u1, f1, g1⟩ := fmul_spec i y h hy (by omega) (by omega)
  generalize fmul i y = t1 at n1 l1 u1 f1 g1
  -- t2 = t1 * y
  obtain ⟨n2, l2, u2, f2, g2⟩ := fmul_spec t1 y n1 hy (by omega) (by omega)
  obtain ⟨l2', u2'⟩ := round_mul_bounds (floatVal t1) (floatVal y) _ _ _ (le_of_lt hY) l1 u1 l2 u2
  generalize fmul t1 y = t2 at n2 l2 u2 f2 g2 l2' u2'
  have a1 : floatVal i * floatVal y ^ 2 * (1 - 1 / 2 ^ 24) ^ 2 ≤ floatVal t2 := by
    calc floatVal i * floatVal y ^ 2 * (1 - 1 / 2 ^ 24) ^ 2
        = floatVal i * floatVal y * (1 - 1 / 2 ^ 24) * floatVal y * (1 - 1 / 2 ^ 24) := by ring
      _ ≤ floatVal t2 := l2'
  have a2 : floatVal t2 ≤ floatVal i * floatVal y ^ 2 * (1 + 1 / 2 ^ 24) ^ 2 := by
    calc floatVal t2
        ≤ floatVal i * floatVal y * (1 + 1 / 2 ^ 24) * floatVal y * (1 + 1 / 2 ^ 24) := u2'
      _ = floatVal i * floatVal y ^ 2 * (1 + 1 / 2 ^ 24) ^ 2 := by ring
  -- t3 = 2.38924456f - t2
  have k1 : (74 / 100 : ℚ) ≤ floatVal t2 := by
    have : (749 / 1000 : ℚ) * (1 - 1 / 2 ^ 24) ^ 2
        ≤ floatVal i * floatVal y ^ 2 * (1 - 1 / 2 ^ 24) ^ 2 :=
      mul_le_mul_of_nonneg_right v1 (by norm_num)
    norm_num at this a1 ⊢
    linarith
  have k2 : floatVal t2 ≤ (85 / 100 : ℚ) := by
    have : floatVal i * floatVal y ^ 2 * (1 + 1 / 2 ^ 24) ^ 2
        ≤ (845 / 1000 : ℚ) * (1 + 1 / 2 ^ 24) ^ 2 :=
      mul_le_mul_of_nonneg_right v2 (by norm_num)
    norm_num at this a2 ⊢
    linarith
  obtain ⟨n3, l3, u3⟩ := fsub_spec c2_38924456 t2 hd n2 (by rw [vd]; norm_num; linarith)
    (by rw [vd]; norm_num; linarith)
  rw [vd] at l3 u3
  have k3 : (1 / 2 : ℚ) ≤ floatVal (fsub c2_38924456 t2) := by
    norm_num at l3 ⊢
    linarith
  have k4 : floatVal (fsub c2_38924456 t2) < 2 := by
    norm_num at u3 ⊢
    linarith
  have k5 : (3 / 2 : ℚ) ≤ floatVal (fsub c2_38924456 t2) := by
    norm_num at l3 ⊢
    linarith
  obtain ⟨f3, g3⟩ := expField_of_value _ n3 k3 k4
  generalize fsub c2_38924456 t2 = t3 at n3 l3 u3 k3 k4 k5 f3 g3
  -- t4 = 0.703952253f * t3
  obtain ⟨n4, l4, u4, _, _⟩ := fmul_spec c0_703952253 t3 hc n3 (by rw [ec]; omega)
    (by rw [ec]; omega)
  rw [vc] at l4 u4
  have k6 : (1 / 2 : ℚ) ≤ floatVal (fmul c0_703952253 t3) := by
    norm_num at l4 ⊢
    linarith
  have k7 : floatVal (fmul c0_703952253 t3) < 2 := by
    norm_num at u4 ⊢
    linarith
  obtain ⟨f4, g4⟩ := expField_of_value _ n4 k6 k7
  generalize fmul c0_703952253 t3 = t4 at n4 l4 u4 k6 k7 f4 g4
  -- result = y * t4
  obtain ⟨n5, l5, u5, _, _⟩ := fmul_spec y t4 hy n4 (by omega) (by omega)
  obtain ⟨r0, r1, r2, r3, r4⟩ := kadlec_final (floatVal i) (floatVal y) (floatVal t2)
    (floatVal t3) (floatVal t4) (floatVal (fmul y t4)) hX hY v1 v2 a1 a2 l3 u3 l4 u4 l5 u5
  exact ⟨n5, r0, r1, r2, r3, r4⟩

end FastSqrt


namespace FastSqrt

/-! ## Relative errors against the real inverse square root -/

/-- If `R ^ 2 * X` is between `(1 - ε) ^ 2` and `(1 + ε) ^ 2`, then `R` is within
relative error `ε` of the inverse square root of `X`. -/
theorem relErr_rsqrt_le (R X ε : ℝ) (hR : 0 < R) (hX : 0 < X) (hε : 0 ≤ ε)
    (h1 : (1 - ε) ^ 2 ≤ R ^ 2 * X) (h2 : R ^ 2 * X ≤ (1 + ε) ^ 2) :
    |R - 1 / Real.sqrt X| / (1 / Real.sqrt X) ≤ ε := by
  have hs : 0 < Real.sqrt X := Real.sqrt_pos.mpr hX
  have hs2 : Real.sqrt X ^ 2 = X := Real.sq_sqrt (le_of_lt hX)
  have hinv : 0 < 1 / Real.sqrt X := by positivity
  have hRs : 0 < R * Real.sqrt X := mul_pos hR hs
  have hsq : (R * Real.sqrt X) ^ 2 = R ^ 2 * X := by rw [mul_pow, hs2]
  have key : R - 1 / Real.sqrt X = (R * Real.sqrt X - 1) * (1 / Real.sqrt X) := by
    field_simp
  rw [key, abs_mul, abs_of_pos hinv, mul_div_assoc, div_self (ne_of_gt hinv), mul_one, abs_le]
  constructor
  · by_contra hc
    push_neg at hc
    have h3 : R * Real.sqrt X < 1 - ε := by linarith
    have h4 : (R * Real.sqrt X) ^ 2 < (1 - ε) ^ 2 := pow_lt_pow_left₀ h3 (le_of_lt hRs) (by norm_num)
    rw [hsq] at h4
    linarith
  · by_contra hc
    push_neg at hc
    have h3 : 1 + ε < R * Real.sqrt X := by linarith
    have h4 : (1 + ε) ^ 2 < (R * Real.sqrt X) ^ 2 := pow_lt_pow_left₀ h3 (by linarith) (by norm_num)
    rw [hsq] at h4
    linarith

/-! ## The domain of the accuracy claims -/

/-- A 32-bit pattern that is finite and denotes a number of at least `1e-30`
is a positive normal pattern with exponent field at least 2. -/
theorem domain_of_ge (i : Nat) (h32 : i < 2 ^ 32) (hfin : expField i ≠ 255)
    (hlo : (1 : ℚ) / 10 ^ 30 ≤ floatVal i) : isPosNormal i ∧ 16777216 ≤ i := by
  have hmag : 0 ≤ floatMag i := by
    unfold floatMag
    split_ifs
    · exact le_refl 0
    · positivity
  have hs : signBit i = 0 := by
    by_contra hc
    have h1 : signBit i = 1 := by
      unfold signBit at hc ⊢
      omega
    simp only [floatVal, h1, if_true] at hlo
    have : (0 : ℚ) < 1 / 10 ^ 30 := by positivity
    linarith
  have h31 : i < 2147483648 := by
    unfold signBit at hs
    norm_num at h32 hs
    omega
  have hE : expField i = i / 8388608 := by
    unfold expField
    norm_num
    omega
  have hge : 16777216 ≤ i := by
    by_contra hc
    push_neg at hc
    rcases Nat.lt_or_ge i 8388608 with hsub | hnorm
    · have he0 : expField i = 0 := by rw [hE]; omega
      have hm : manField i = i := by
        unfold manField
        norm_num
        omega
      simp only [floatVal, floatMag, sig, expo, hs, he0, hm, if_true, if_false] at hlo
      norm_num at hlo
      have hq : (i : ℚ) < 8388608 := by exact_mod_cast hsub
      linarith
    · have hn : isPosNormal i := posNormal_of_bounds i hnorm (by omega)
      have hlt := floatVal_lt i 16777216 hn (by decide) hc
      have hv : floatVal 16777216 = 1 / 2 ^ 125 := by
        have h := floatVal_fields_nat 2 0 (by norm_num) (by norm_num) (by norm_num)
        norm_num at h
        rw [h]
        norm_num
      rw [hv] at hlt
      norm_num at hlt hlo
      linarith
  refine ⟨posNormal_of_bounds i (by omega) ?_, hge⟩
  have : i / 8388608 ≠ 255 := by rw [← hE]; exact hfin
  omega

end FastSqrt


namespace FastSqrt

/-! ## Monotonicity of the refinement step without rounding -/

/-- Two consecutive positive normal patterns differ by one unit `w` in the last
place of the first, which has at least `2 ^ 23` such units; the second has at
most `2 ^ 24`. -/
theorem succ_val (p : Nat) (hp : isPosNormal p) (hp1 : isPosNormal (p + 1)) :
    ∃ w : ℚ, 0 < w ∧ floatVal (p + 1) = floatVal p + w ∧ 8388608 * w ≤ floatVal p ∧
      floatVal (p + 1) ≤ 16777216 * w := by
  obtain ⟨b1, b2⟩ := posNormal_bounds p hp
  obtain ⟨c1, c2⟩ := posNormal_bounds _ hp1
  obtain ⟨e, m, hpm, hm, he1, he2⟩ : ∃ e m : Nat, p = e * 8388608 + m ∧ m < 8388608 ∧ 1 ≤ e ∧
      e ≤ 254 := ⟨p / 8388608, p % 8388608, by omega, by omega, by omega, by omega⟩
  have hv : floatVal p = (8388608 + (m : ℚ)) * (2 : ℚ) ^ e / 2 ^ 150 := by
    rw [hpm]
    exact floatVal_fields_nat e m he1 he2 hm
  have hw : (0 : ℚ) < (2 : ℚ) ^ e / 2 ^ 150 := by positivity
  have hm0 : (0 : ℚ) ≤ (m : ℚ) := Nat.cast_nonneg m
  have hmq : (m : ℚ) + 1 ≤ 8388608 := by
    have : m + 1 ≤ 8388608 := by omega
    exact_mod_cast this
  refine ⟨(2 : ℚ) ^ e / 2 ^ 150, hw, ?_, ?_, ?_⟩
  · rcases Nat.lt_or_ge (m + 1) 8388608 with hlt | hge
    · have e1 : p + 1 = e * 8388608 + (m + 1) := by omega
      rw [e1, floatVal_fields_nat e (m + 1) he1 he2 hlt, hv]
      push_cast
      ring
    · have hm2 : m = 8388607 := by omega
      have e1 : p + 1 = (e + 1) * 8388608 + 0 := by omega
      rw [e1, floatVal_fields_nat (e + 1) 0 (by omega) (by omega) (by norm_num), hv, hm2, pow_succ]
      push_cast
      ring
  · rw [hv]
    have : 8388608 * ((2 : ℚ) ^ e / 2 ^ 150) ≤ (8388608 + (m : ℚ)) * ((2 : ℚ) ^ e / 2 ^ 150) :=
      mul_le_mul_of_nonneg_right (by linarith) (le_of_lt hw)
    calc 8388608 * ((2 : ℚ) ^ e / 2 ^ 150) ≤ (8388608 + (m : ℚ)) * ((2 : ℚ) ^ e / 2 ^ 150) := this
      _ = (8388608 + (m : ℚ)) * (2 : ℚ) ^ e / 2 ^ 150 := by ring
  · have h3 : floatVal (p + 1) = (8388608 + (m : ℚ) + 1) * ((2 : ℚ) ^ e / 2 ^ 150) := by
      rcases Nat.lt_or_ge (m + 1) 8388608 with hlt | hge
      · have e1 : p + 1 = e * 8388608 + (m + 1) := by omega
        rw [e1, floatVal_fields_nat e (m + 1) he1 he2 hlt]
        push_cast
        ring
      · have hm2 : m = 8388607 := by omega
        have e1 : p + 1 = (e + 1) * 8388608 + 0 := by omega
        rw [e1, floatVal_fields_nat (e + 1) 0 (by omega) (by omega) (by norm_num), hm2, pow_succ]
        push_cast
        ring
    rw [h3]
    exact mul_le_mul_of_nonneg_right (by linarith) (le_of_lt hw)

/-- One step of the input to the next pattern when the estimate drops by one
pattern: the refinement `y * (K - x * y ^ 2)` does not increase, provided
`3 * vhi ≤ K + vlo / 2` for bounds `vlo ≤ x * y ^ 2 ≤ vhi`. -/
theorem step_ineq (K vlo vhi a c X X' Y Y' : ℚ) (ha : 0 < a) (hc : 0 < c) (hX : 0 < X)
    (hY' : 0 < Y') (hXa : X' = X + a) (hYc : Y = Y' + c) (hXu : X' ≤ 16777216 * a)
    (hYl : 8388608 * c ≤ Y') (hlo : vlo ≤ X' * Y' ^ 2) (hhi : X * Y ^ 2 ≤ vhi)
    (hK : 3 * vhi ≤ K + vlo / 2) :
    Y' * (K - X' * Y' ^ 2) ≤ Y * (K - X * Y ^ 2) := by
  have hY : 0 < Y := by linarith
  have s1 : Y ^ 2 + Y * Y' + Y' ^ 2 ≤ 3 * Y ^ 2 := by nlinarith
  have s2 : X * (Y ^ 2 + Y * Y' + Y' ^ 2) ≤ 3 * vhi := by
    have := mul_le_mul_of_nonneg_left s1 (le_of_lt hX)
    linarith
  have s3 : X' / 2 * c ≤ a * Y' := by
    have t1 : a * (8388608 * c) ≤ a * Y' := mul_le_mul_of_nonneg_left hYl (le_of_lt ha)
    have t2 : X' * c ≤ 16777216 * a * c := mul_le_mul_of_nonneg_right hXu (le_of_lt hc)
    linarith
  have s4 : vlo / 2 * c ≤ a * Y' ^ 3 := by
    have t1 : X' / 2 * c * Y' ^ 2 ≤ a * Y' * Y' ^ 2 :=
      mul_le_mul_of_nonneg_right s3 (by positivity)
    have t2 : vlo * c ≤ X' * Y' ^ 2 * c := mul_le_mul_of_nonneg_right hlo (le_of_lt hc)
    have t3 : a * Y' * Y' ^ 2 = a * Y' ^ 3 := by ring
    linarith
  have s5 : c * (X * (Y ^ 2 + Y * Y' + Y' ^ 2)) ≤ c * (3 * vhi) :=
    mul_le_mul_of_nonneg_left s2 (le_of_lt hc)
  have key : Y * (K - X * Y ^ 2) - Y' * (K - X' * Y' ^ 2)
      = c * K - c * (X * (Y ^ 2 + Y * Y' + Y' ^ 2)) + a * Y' ^ 3 := by
    rw [hXa, hYc]
    ring
  have hck : c * (3 * vhi) ≤ c * (K + vlo / 2) := mul_le_mul_of_nonneg_left hK (le_of_lt hc)
  linarith

/-- A function on patterns that does not increase from a positive normal
pattern to the next does not increase over the positive normal patterns. -/
theorem antitone_of_step (f : Nat → ℚ)
    (hstep : ∀ i : Nat, isPosNormal i → isPosNormal (i + 1) → f (i + 1) ≤ f i) :
    ∀ d i : Nat, isPosNormal i → isPosNormal (i + d) → f (i + d) ≤ f i := by
  intro d
  induction d with
  | zero =>
    intro i _ _
    exact le_refl _
  | succ d ih =>
    intro i hi hid
    obtain ⟨b1, b2⟩ := posNormal_bounds i hi
    obtain ⟨c1, c2⟩ := posNormal_bounds _ hid
    have hmid : isPosNormal (i + d) := posNormal_of_bounds _ (by omega) (by omega)
    have h1 := hstep (i + d) hmid (by rw [Nat.add_assoc]; exact hid)
    have h2 := ih i hi hmid
    rw [Nat.add_assoc] at h1
    exact le_trans h1 h2

theorem estimate_succ (i : Nat) (hi : isPosNormal i) (hi1 : isPosNormal (i + 1)) :
    (i % 2 = 0 → q_rsqrt_estimate (i + 1) = q_rsqrt_estimate i ∧
      q_rsqrt_v2_estimate (i + 1) = q_rsqrt_v2_estimate i) ∧
    (i % 2 = 1 → q_rsqrt_estimate i = q_rsqrt_estimate (i + 1) + 1 ∧
      q_rsqrt_v2_estimate i = q_rsqrt_v2_estimate (i + 1) + 1) := by
  obtain ⟨b1, b2⟩ := posNormal_bounds i hi
  obtain ⟨c1, c2⟩ := posNormal_bounds _ hi1
  obtain ⟨e1, e2⟩ := estimate_eq i (by norm_num; omega)
  obtain ⟨f1, f2⟩ := estimate_eq (i + 1) (by norm_num; omega)
  constructor
  · intro h
    constructor <;> omega
  · intro h
    constructor <;> omega

/-- Without rounding, the refinement of `q_rsqrt` does not increase from a
positive normal input to the next one. -/
theorem q_rsqrt_exact_step (i : Nat) (hi : isPosNormal i) (hi1 : isPosNormal (i + 1)) :
    q_rsqrt_exact (i + 1) ≤ q_rsqrt_exact i := by
  obtain ⟨w, hw, hx1, _, hx3⟩ := succ_val i hi hi1
  obtain ⟨hev, hodd⟩ := estimate_succ i hi hi1
  obtain ⟨hy, _, _, _, v2⟩ := q_rsqrt_estimate_range i hi
  obtain ⟨hy', _, _, v1', _⟩ := q_rsqrt_estimate_range (i + 1) hi1
  have hX := floatVal_pos i hi
  have hY := floatVal_pos _ hy
  have hY' := floatVal_pos _ hy'
  simp only [q_rsqrt_exact]
  rcases Nat.mod_two_eq_zero_or_one i with h0 | h1
  · rw [(hev h0).1, hx1]
    have : 0 ≤ floatVal (q_rsqrt_estimate i) ^ 3 * w := by positivity
    nlinarith [this]
  · have hyy := (hodd h1).1
    rw [hyy] at hy
    obtain ⟨c, hc, hy1, hy2, _⟩ := succ_val _ hy' hy
    rw [hyy] at v2 hY ⊢
    have key := step_ineq 3 (931 / 1000) (1071 / 1000) w c (floatVal i) (floatVal (i + 1))
      (floatVal (q_rsqrt_estimate (i + 1) + 1)) (floatVal (q_rsqrt_estimate (i + 1)))
      hw hc hX hY' hx1 hy1 hx3 hy2 v1' v2 (by norm_num)
    nlinarith [key]

/-- Without rounding, the refinement of `q_rsqrt_v2_more_precise` does not
increase from a positive normal input to the next one. -/
theorem q_rsqrt_v2_exact_step (i : Nat) (hi : isPosNormal i) (hi1 : isPosNormal (i + 1)) :
    q_rsqrt_v2_exact (i + 1) ≤ q_rsqrt_v2_exact i := by
  obtain ⟨w, hw, hx1, _, hx3⟩ := succ_val i hi hi1
  obtain ⟨hev, hodd⟩ := estimate_succ i hi hi1
  obtain ⟨hy, _, _, _, v2⟩ := q_rsqrt_v2_estimate_range i hi
  obtain ⟨hy', _, _, v1', _⟩ := q_rsqrt_v2_estimate_range (i + 1) hi1
  have hX := floatVal_pos i hi
  have hY := floatVal_pos _ hy
  have hY' := floatVal_pos _ hy'
  simp only [q_rsqrt_v2_exact, c0_703952253_spec.2.1, c2_38924456_spec.2]
  rcases Nat.mod_two_eq_zero_or_one i with h0 | h1
  · rw [(hev h0).2, hx1]
    have : 0 ≤ floatVal (q_rsqrt_v2_estimate i) ^ 3 * w := by positivity
    nlinarith [this]
  · have hyy := (hodd h1).2
    rw [hyy] at hy
    obtain ⟨c, hc, hy1, hy2, _⟩ := succ_val _ hy' hy
    rw [hyy] at v2 hY ⊢
    have key := step_ineq (10021218 / 4194304) (749 / 1000) (845 / 1000) w c (floatVal i)
      (floatVal (i + 1)) (floatVal (q_rsqrt_v2_estimate (i + 1) + 1))
      (floatVal (q_rsqrt_v2_estimate (i + 1))) hw hc hX hY' hx1 hy1 hx3 hy2 v1' v2 (by norm_num)
    nlinarith [key]

theorem q_rsqrt_exact_antitone (a b : Nat) (ha : isPosNormal a) (hb : isPosNormal b)
    (hab : a ≤ b) : q_rsqrt_exact b ≤ q_rsqrt_exact a := by
  obtain ⟨d, hd⟩ : ∃ d : Nat, b = a + d := ⟨b - a, by omega⟩
  subst hd
  exact antitone_of_step q_rsqrt_exact q_rsqrt_exact_step d a ha hb

theorem q_rsqrt_v2_exact_antitone (a b : Nat) (ha : isPosNormal a) (hb : isPosNormal b)
    (hab : a ≤ b) : q_rsqrt_v2_exact b ≤ q_rsqrt_v2_exact a := by
  obtain ⟨d, hd⟩ : ∃ d : Nat, b = a + d := ⟨b - a, by omega⟩
  subst hd
  exact antitone_of_step q_rsqrt_v2_exact q_rsqrt_v2_exact_step d a ha hb

/-- The result of `q_rsqrt` is within the relative distance `3.2e-7` of the
refinement evaluated without rounding. -/
theorem q_rsqrt_near_exact (i : Nat) (h : isPosNormal i) :
    0 < q_rsqrt_exact i ∧
    q_rsqrt_exact i * (1 - 32 / 10 ^ 8) ≤ floatVal (q_rsqrt i) ∧
    floatVal (q_rsqrt i) ≤ q_rsqrt_exact i * (1 + 32 / 10 ^ 8) := by
  obtain ⟨_, _, _, _, r3, r4⟩ := q_rsqrt_bounds i h
  obtain ⟨hy, _, _, v1, v2⟩ := q_rsqrt_estimate_range i h
  have hY := floatVal_pos _ hy
  simp only [q_rsqrt_exact]
  generalize floatVal (q_rsqrt_estimate i) = Y at r3 r4 v1 v2 hY
  generalize floatVal i = X at r3 r4 v1 v2
  generalize floatVal (q_rsqrt i) = R at r3 r4
  have hw : (0 : ℚ) ≤ (32 / 10 ^ 8) * (3 / 2 - X * Y ^ 2 / 2) - 3 / 10 ^ 7 := by linarith
  have hp := mul_nonneg (le_of_lt hY) hw
  have hw2 : (0 : ℚ) < 3 / 2 - X * Y ^ 2 / 2 := by linarith
  have hp2 := mul_pos hY hw2
  refine ⟨by nlinarith [hp2], by nlinarith [hp], by nlinarith [hp]⟩

/-- The result of `q_rsqrt_v2_more_precise` is within the relative distance
`3.2e-7` of the refinement evaluated without rounding. -/
theorem q_rsqrt_v2_near_exact (i : Nat) (h : isPosNormal i) :
    0 < q_rsqrt_v2_exact i ∧
    q_rsqrt_v2_exact i * (1 - 32 / 10 ^ 8) ≤ floatVal (q_rsqrt_v2_more_precise i) ∧
    floatVal (q_rsqrt_v2_more_precise i) ≤ q_rsqrt_v2_exact i * (1 + 32 / 10 ^ 8) := by
  obtain ⟨_, _, _, _, r3, r4⟩ := q_rsqrt_v2_bounds i h
  obtain ⟨hy, _, _, v1, v2⟩ := q_rsqrt_v2_estimate_range i h
  have hY := floatVal_pos _ hy
  simp only [q_rsqrt_v2_exact, c0_703952253_spec.2.1, c2_38924456_spec.2]
  generalize floatVal (q_rsqrt_v2_estimate i) = Y at r3 r4 v1 v2 hY
  generalize floatVal i = X at r3 r4 v1 v2
  generalize floatVal (q_rsqrt_v2_more_precise i) = R at r3 r4
  have hw : (0 : ℚ) ≤ (32 / 10 ^ 8) * ((11810359 / 16777216) * ((10021218 / 4194304) - X * Y ^ 2))
      - 3 / 10 ^ 7 := by linarith
  have hp := mul_nonneg (le_of_lt hY) hw
  have hw2 : (0 : ℚ) < (11810359 / 16777216) * ((10021218 / 4194304) - X * Y ^ 2) := by linarith
  have hp2 := mul_pos hY hw2
  refine ⟨by nlinarith [hp2], by nlinarith [hp], by nlinarith [hp]⟩

end FastSqrt


namespace FastSqrt

/-- Claim C4: `sqrt_approx` is non-decreasing over the positive normal floats:
if the value of `z1` is at most the value of `z2`, the value of
`sqrt_approx z1` is at most the value of `sqrt_approx z2`. -/
theorem C4_sqrt_approx_nondecreasing (z1 z2 : Nat) (h1 : isPosNormal z1) (h2 : isPosNormal z2)
    (h : floatVal z1 ≤ floatVal z2) :
    floatVal (sqrt_approx z1) ≤ floatVal (sqrt_approx z2) :=
  floatVal_le _ _ (sqrt_approx_posNormal z1 h1) (sqrt_approx_posNormal z2 h2)
    (sqrt_approx_mono_bits z1 z2 h1 h2 ((floatVal_le_iff z1 z2 h1 h2).mp h))

theorem C4_sqrt_approx_nondecreasing_witness :
    isPosNormal 0x3F800000 ∧ isPosNormal 0x40800000 ∧
    floatVal (sqrt_approx 0x3F800000) ≤ floatVal (sqrt_approx 0x40800000) :=
  ⟨by decide, by decide,
    C4_sqrt_approx_nondecreasing 0x3F800000 0x40800000 (by decide) (by decide)
      ((floatVal_le_iff _ _ (by decide) (by decide)).mpr (by decide))⟩

/-- Claim C7: for a 32-bit pattern `i ≥ 2 ^ 23` no integer step of `sqrt_approx`
wraps modulo `2 ^ 32` (each step equals the operation on unbounded integers),
the three first steps give the floor of the right-hand side of the identity
of the code comment with `b = 127` and `m = 23`, both sides of that identity
are equal, and the output pattern is `i / 2 + 127 * 2 ^ 22 - 0x4b0d2`. -/
theorem C7_sqrt_approx_steps (i : Nat) (h1 : 2 ^ 23 ≤ i) (h2 : i < 2 ^ 32) :
    ((sqrtStep1 i : Int) = (i : Int) - 2 ^ 23) ∧
    ((sqrtStep3 (sqrtStep2 (sqrtStep1 i)) : Int) = (sqrtStep2 (sqrtStep1 i) : Int) + 2 ^ 29) ∧
    ((sqrtStep4 (sqrtStep3 (sqrtStep2 (sqrtStep1 i))) : Int)
      = (sqrtStep3 (sqrtStep2 (sqrtStep1 i)) : Int) - 0x4b0d2) ∧
    ((((i : ℚ) / 2 ^ 23 - 127) / 2 + 127) * 2 ^ 23
      = ((i : ℚ) - 2 ^ 23) / 2 + ((127 + 1) / 2) * 2 ^ 23) ∧
    ((sqrtStep3 (sqrtStep2 (sqrtStep1 i)) : Int)
      = ⌊((i : ℚ) - 2 ^ 23) / 2 + ((127 + 1) / 2) * 2 ^ 23⌋) ∧
    ((sqrt_approx i : Int) = (i : Int) / 2 + 127 * 2 ^ 22 - 0x4b0d2) := by
  obtain ⟨k, r, hi, hr, hk⟩ : ∃ k r : Nat, i = 2 * k + r ∧ r ≤ 1 ∧ i / 2 = k :=
    ⟨i / 2, i % 2, by omega, by omega, rfl⟩
  have hfloor : ⌊((i : ℚ) - 2 ^ 23) / 2 + ((127 + 1) / 2) * 2 ^ 23⌋
      = ((k + 127 * 2 ^ 22 : Nat) : Int) := by
    rw [Int.floor_eq_iff]
    have hq : (i : ℚ) = 2 * (k : ℚ) + (r : ℚ) := by exact_mod_cast hi
    have hm0 : (0 : ℚ) ≤ (r : ℚ) := by positivity
    have hm1 : (r : ℚ) ≤ 1 := by exact_mod_cast hr
    push_cast
    constructor <;> linarith
  refine ⟨?_, ?_, ?_, by ring, ?_, ?_⟩
  · unfold sqrtStep1
    norm_num at h1 h2 ⊢
    omega
  · unfold sqrtStep3 sqrtStep2 sqrtStep1
    norm_num at h1 h2 ⊢
    omega
  · unfold sqrtStep4 sqrtStep3 sqrtStep2 sqrtStep1
    norm_num at h1 h2 ⊢
    omega
  · rw [hfloor]
    unfold sqrtStep3 sqrtStep2 sqrtStep1
    norm_num at h1 h2 ⊢
    omega
  · unfold sqrt_approx sqrtStep4 sqrtStep3 sqrtStep2 sqrtStep1
    norm_num at h1 h2 ⊢
    omega

theorem C7_sqrt_approx_steps_witness :
    (sqrt_approx 0x40000000 : Int) = (0x40000000 : Int) / 2 + 127 * 2 ^ 22 - 0x4b0d2 :=
  (C7_sqrt_approx_steps 0x40000000 (by norm_num) (by norm_num)).2.2.2.2.2

/-- A pattern with the sign bit set and a non-zero, non-saturated exponent
field denotes a negative number. -/
theorem floatVal_neg_of_fields (p : Nat) (hs : signBit p = 1) (h0 : expField p ≠ 0)
    (h1 : expField p ≠ 255) : floatVal p < 0 := by
  simp only [floatVal, floatMag, sig, hs, h0, h1, if_false, if_true]
  have : (0 : ℚ) < ((2 ^ 23 + manField p : Nat) : ℚ) * (2 : ℚ) ^ expo p := by positivity
  linarith

/-- Claim C8: for the pattern of `+0.0` or of a positive subnormal (`i < 2 ^ 23`)
the subtraction of `2 ^ 23` wraps modulo `2 ^ 32`, the returned pattern lies in
`[0x9FBB4F2E, 0x9FFB4F2D]`, its sign bit is set and it denotes a negative
number; `sqrt_approx` of `+0.0` is `0x9FBB4F2E`, about `-7.9e-20`. -/
theorem C8_sqrt_approx_subnormal (i : Nat) (h : i < 2 ^ 23) :
    ((sqrtStep1 i : Int) = (i : Int) - 2 ^ 23 + 2 ^ 32) ∧
    0x9FBB4F2E ≤ sqrt_approx i ∧ sqrt_approx i ≤ 0x9FFB4F2D ∧
    signBit (sqrt_approx i) = 1 ∧ floatVal (sqrt_approx i) < 0 ∧
    sqrt_approx 0 = 0x9FBB4F2E ∧
    (-(8 / 10 ^ 20 : ℚ) < floatVal (sqrt_approx 0) ∧ floatVal (sqrt_approx 0) < -(79 / 10 ^ 21 : ℚ)) := by
  have hb : 0x9FBB4F2E ≤ sqrt_approx i ∧ sqrt_approx i ≤ 0x9FFB4F2D := by
    unfold sqrt_approx sqrtStep4 sqrtStep3 sqrtStep2 sqrtStep1
    norm_num at h ⊢
    omega
  have hs : signBit (sqrt_approx i) = 1 := by
    unfold signBit
    norm_num at hb ⊢
    omega
  have he : expField (sqrt_approx i) = 63 := by
    unfold expField
    norm_num at hb ⊢
    omega
  have h0 : sqrt_approx 0 = 0x9FBB4F2E := by decide
  refine ⟨?_, hb.1, hb.2, hs, ?_, h0, ?_⟩
  · unfold sqrtStep1
    norm_num at h ⊢
    omega
  · exact floatVal_neg_of_fields _ hs (by omega) (by omega)
  · rw [h0]
    have e1 : signBit 0x9FBB4F2E = 1 := by decide
    have e2 : expField 0x9FBB4F2E = 63 := by decide
    have e3 : manField 0x9FBB4F2E = 0x3B4F2E := by decide
    simp only [floatVal, floatMag, sig, expo, e1, e2, e3, if_true]
    norm_num

theorem C8_sqrt_approx_subnormal_witness :
    0x9FBB4F2E ≤ sqrt_approx 0x7FFFFF ∧ sqrt_approx 0x7FFFFF ≤ 0x9FFB4F2D :=
  ⟨(C8_sqrt_approx_subnormal 0x7FFFFF (by norm_num)).2.1,
    (C8_sqrt_approx_subnormal 0x7FFFFF (by norm_num)).2.2.1⟩

/-- Claim C9: for patterns with the sign bit clear the initial-estimate
subtractions of `q_rsqrt` and `q_rsqrt_v2_more_precise` do not wrap, the
estimate is non-increasing in the input pattern (as a pattern and as a value),
its exponent field lies in `[62, 190]`, and it is a positive normal float. -/
theorem C9_estimate_safe (i j : Nat) (hij : i ≤ j) (hj : j < 2 ^ 31) :
    ((q_rsqrt_estimate i : Int) = 0x5f3759df - (i : Int) / 2) ∧
    ((q_rsqrt_v2_estimate i : Int) = 0x5F1FFFF9 - (i : Int) / 2) ∧
    q_rsqrt_estimate j ≤ q_rsqrt_estimate i ∧
    q_rsqrt_v2_estimate j ≤ q_rsqrt_v2_estimate i ∧
    floatVal (q_rsqrt_estimate j) ≤ floatVal (q_rsqrt_estimate i) ∧
    floatVal (q_rsqrt_v2_estimate j) ≤ floatVal (q_rsqrt_v2_estimate i) ∧
    (62 ≤ expField (q_rsqrt_estimate i) ∧ expField (q_rsqrt_estimate i) ≤ 190) ∧
    (62 ≤ expField (q_rsqrt_v2_estimate i) ∧ expField (q_rsqrt_v2_estimate i) ≤ 190) ∧
    signBit (q_rsqrt_estimate i) = 0 ∧ signBit (q_rsqrt_v2_estimate i) = 0 ∧
    isPosNormal (q_rsqrt_estimate i) ∧ isPosNormal (q_rsqrt_v2_estimate i) ∧
    0 < floatVal (q_rsqrt_estimate i) ∧ 0 < floatVal (q_rsqrt_v2_estimate i) := by
  have hi : i < 2 ^ 31 := lt_of_le_of_lt hij hj
  obtain ⟨a1, a2⟩ := estimate_eq i hi
  obtain ⟨b1, b2⟩ := estimate_eq j hj
  obtain ⟨n1, n2⟩ := estimate_posNormal i hi
  obtain ⟨m1, m2⟩ := estimate_posNormal j hj
  have l1 : q_rsqrt_estimate j ≤ q_rsqrt_estimate i := by
    norm_num at hi hj a1 b1 ⊢
    omega
  have l2 : q_rsqrt_v2_estimate j ≤ q_rsqrt_v2_estimate i := by
    norm_num at hi hj a2 b2 ⊢
    omega
  refine ⟨?_, ?_, l1, l2, floatVal_le _ _ m1 n1 l1, floatVal_le _ _ m2 n2 l2, ?_, ?_, ?_, ?_,
    n1, n2, floatVal_pos _ n1, floatVal_pos _ n2⟩
  · norm_num at hi a1 ⊢
    omega
  · norm_num at hi a2 ⊢
    omega
  · unfold expField
    norm_num at hi a1 ⊢
    omega
  · unfold expField
    norm_num at hi a2 ⊢
    omega
  · exact (posNormal_expField _ n1).2.2.2
  · exact (posNormal_expField _ n2).2.2.2

theorem C9_estimate_safe_witness :
    q_rsqrt_estimate 0x7FFFFFFF ≤ q_rsqrt_estimate 0 ∧
    expField (q_rsqrt_estimate 0) ≤ 190 :=
  ⟨(C9_estimate_safe 0 0x7FFFFFFF (by norm_num) (by norm_num)).2.2.1,
    (C9_estimate_safe 0 0x7FFFFFFF (by norm_num) (by norm_num)).2.2.2.2.2.2.1.2⟩

/-- Claim C10: `sqrt_approx` is scale-covariant under multiplication by 4: when
`i` and `i + 2 ^ 24` are positive normal patterns (the second denotes 4 times
the first), the output pattern for `i + 2 ^ 24` is the output pattern for `i`
plus `2 ^ 23`, it denotes exactly twice the output for `i`, and the ratio
of the squared output to the input is the same for both. -/
theorem C10_sqrt_approx_scale (i : Nat) (h1 : isPosNormal i) (h2 : isPosNormal (i + 2 ^ 24)) :
    floatVal (i + 2 ^ 24) = 4 * floatVal i ∧
    sqrt_approx (i + 2 ^ 24) = sqrt_approx i + 2 ^ 23 ∧
    floatVal (sqrt_approx (i + 2 ^ 24)) = 2 * floatVal (sqrt_approx i) ∧
    floatVal (sqrt_approx (i + 2 ^ 24)) ^ 2 / floatVal (i + 2 ^ 24)
      = floatVal (sqrt_approx i) ^ 2 / floatVal i := by
  obtain ⟨b1, b2⟩ := posNormal_bounds i h1
  obtain ⟨b3, b4⟩ := posNormal_bounds _ h2
  have e24 : i + 2 ^ 24 = (i + 2 ^ 23) + 2 ^ 23 := by norm_num [add_assoc]
  have hmid : isPosNormal (i + 2 ^ 23) := by
    apply posNormal_of_bounds
    · omega
    · norm_num at b4 ⊢
      omega
  have hv : floatVal (i + 2 ^ 24) = 4 * floatVal i := by
    have h2b : isPosNormal ((i + 2 ^ 23) + 2 ^ 23) := by rw [← e24]; exact h2
    rw [e24, floatVal_add_exp _ hmid h2b, floatVal_add_exp _ h1 hmid]
    ring
  have hs : sqrt_approx (i + 2 ^ 24) = sqrt_approx i + 2 ^ 23 := by
    have a1 := sqrt_approx_eq_num i b1 (by omega)
    have a2 := sqrt_approx_eq_num (i + 2 ^ 24) b3 (by omega)
    norm_num at a1 a2 b3 b4 ⊢
    omega
  have ho : floatVal (sqrt_approx (i + 2 ^ 24)) = 2 * floatVal (sqrt_approx i) := by
    have n1 := sqrt_approx_posNormal i h1
    have n2 := sqrt_approx_posNormal _ h2
    rw [hs] at n2 ⊢
    exact floatVal_add_exp _ n1 n2
  refine ⟨hv, hs, ho, ?_⟩
  have hp := floatVal_pos i h1
  rw [ho, hv]
  field_simp
  ring

theorem C10_sqrt_approx_scale_witness :
    sqrt_approx (0x3F800000 + 2 ^ 24) = sqrt_approx 0x3F800000 + 2 ^ 23 :=
  (C10_sqrt_approx_scale 0x3F800000 (by decide) (by decide)).2.1

end FastSqrt


namespace FastSqrt

/-- Claim C1: for every positive normal float `z` (in particular for every
finite `z` with `1e-30 ≤ z ≤ FLT_MAX`) the value `r` of `sqrt_approx z` is
positive, satisfies `0.96 ^ 2 * z ≤ r ^ 2 ≤ 1.04 ^ 2 * z`, and is within 4 %
relative error of the real square root of `z`; the inputs `4.0` and `1.0` are
such floats. -/
theorem C1_sqrt_approx_error (z : Nat) (h : isPosNormal z) :
    0 < floatVal (sqrt_approx z) ∧
    (96 / 100 : ℚ) ^ 2 * floatVal z ≤ floatVal (sqrt_approx z) ^ 2 ∧
    floatVal (sqrt_approx z) ^ 2 ≤ (104 / 100 : ℚ) ^ 2 * floatVal z ∧
    |((floatVal (sqrt_approx z) : ℚ) : ℝ) - Real.sqrt ((floatVal z : ℚ) : ℝ)|
      / Real.sqrt ((floatVal z : ℚ) : ℝ) ≤ 4 / 100 := by
  obtain ⟨r0, r1, r2⟩ := sqrt_ratio_bounds z h
  have hz := floatVal_pos z h
  refine ⟨r0, ?_, ?_, ?_⟩
  · have : (96 / 100 : ℚ) ^ 2 * floatVal z ≤ (9652 / 10000 : ℚ) ^ 2 * floatVal z :=
      mul_le_mul_of_nonneg_right (by norm_num) (le_of_lt hz)
    linarith
  · have : (10348 / 10000 : ℚ) ^ 2 * floatVal z ≤ (104 / 100 : ℚ) ^ 2 * floatVal z :=
      mul_le_mul_of_nonneg_right (by norm_num) (le_of_lt hz)
    linarith
  · have := sqrt_approx_relErr z h
    linarith

theorem C1_sqrt_approx_error_witness :
    (floatVal 0x40800000 = 4 ∧
      |((floatVal (sqrt_approx 0x40800000) : ℚ) : ℝ) - Real.sqrt ((floatVal 0x40800000 : ℚ) : ℝ)|
        / Real.sqrt ((floatVal 0x40800000 : ℚ) : ℝ) ≤ 4 / 100) ∧
    (floatVal 0x3F800000 = 1 ∧
      |((floatVal (sqrt_approx 0x3F800000) : ℚ) : ℝ) - Real.sqrt ((floatVal 0x3F800000 : ℚ) : ℝ)|
        / Real.sqrt ((floatVal 0x3F800000 : ℚ) : ℝ) ≤ 4 / 100) :=
  ⟨⟨floatVal_four, (C1_sqrt_approx_error 0x40800000 (by decide)).2.2.2⟩,
    ⟨floatVal_one, (C1_sqrt_approx_error 0x3F800000 (by decide)).2.2.2⟩⟩

/-- Claim C6: the relative error of `sqrt_approx` against the real square root
is below 3.48 % for every positive normal float, and it is above 3.47 % for
`z = 2.0`, whose output pattern is `0x3FBB4F2E`, about 1.46335. -/
theorem C6_sqrt_approx_max_error (z : Nat) (h : isPosNormal z) :
    |((floatVal (sqrt_approx z) : ℚ) : ℝ) - Real.sqrt ((floatVal z : ℚ) : ℝ)|
      / Real.sqrt ((floatVal z : ℚ) : ℝ) < 348 / 10000 ∧
    (isPosNormal 0x40000000 ∧ floatVal 0x40000000 = 2 ∧ sqrt_approx 0x40000000 = 0x3FBB4F2E ∧
      (146335 / 100000 : ℚ) < floatVal (sqrt_approx 0x40000000) ∧
      floatVal (sqrt_approx 0x40000000) < (146336 / 100000 : ℚ) ∧
      347 / 10000 < |((floatVal (sqrt_approx 0x40000000) : ℚ) : ℝ)
          - Real.sqrt ((floatVal 0x40000000 : ℚ) : ℝ)|
        / Real.sqrt ((floatVal 0x40000000 : ℚ) : ℝ)) := by
  have ho : sqrt_approx 0x40000000 = 0x3FBB4F2E := by decide
  refine ⟨sqrt_approx_relErr z h, by decide, floatVal_two, ho, ?_, ?_, ?_⟩
  · rw [ho, floatVal_sqrt_two]
    norm_num
  · rw [ho, floatVal_sqrt_two]
    norm_num
  · apply relErr_sqrt_gt
    · rw [ho, floatVal_sqrt_two]
      norm_num
    · rw [floatVal_two]
      norm_num
    · rw [ho, floatVal_sqrt_two, floatVal_two]
      norm_num

theorem C6_sqrt_approx_max_error_witness :
    |((floatVal (sqrt_approx 0x3F8961A5) : ℚ) : ℝ) - Real.sqrt ((floatVal 0x3F8961A5 : ℚ) : ℝ)|
      / Real.sqrt ((floatVal 0x3F8961A5 : ℚ) : ℝ) < 348 / 10000 :=
  (C6_sqrt_approx_max_error 0x3F8961A5 (by decide)).1

end FastSqrt


namespace FastSqrt

/-- Claim C2: for every finite float `number` with `1e-30 ≤ number`, the value
`r` of `q_rsqrt number` (every float operation rounded to nearest) is positive,
`0.998 ^ 2 ≤ r ^ 2 * number ≤ 1.002 ^ 2`, and `r` is within relative error
0.002 of the real inverse square root of `number`. -/
theorem C2_q_rsqrt_error (number : Nat) (h32 : number < 2 ^ 32) (hfin : expField number ≠ 255)
    (hlo : (1 : ℚ) / 10 ^ 30 ≤ floatVal number) :
    0 < floatVal (q_rsqrt number) ∧
    (998 / 1000 : ℚ) ^ 2 ≤ floatVal (q_rsqrt number) ^ 2 * floatVal number ∧
    floatVal (q_rsqrt number) ^ 2 * floatVal number ≤ (1002 / 1000 : ℚ) ^ 2 ∧
    |((floatVal (q_rsqrt number) : ℚ) : ℝ) - 1 / Real.sqrt ((floatVal number : ℚ) : ℝ)|
      / (1 / Real.sqrt ((floatVal number : ℚ) : ℝ)) ≤ 2 / 1000 := by
  obtain ⟨hn, _⟩ := domain_of_ge number h32 hfin hlo
  obtain ⟨_, r0, r1, r2, _, _⟩ := q_rsqrt_bounds number hn
  have hX := floatVal_pos number hn
  refine ⟨r0, r1, r2, ?_⟩
  apply relErr_rsqrt_le
  · exact_mod_cast r0
  · exact_mod_cast hX
  · norm_num
  · have h2 : (((998 / 1000 : ℚ) ^ 2 : ℚ) : ℝ)
        ≤ ((floatVal (q_rsqrt number) ^ 2 * floatVal number : ℚ) : ℝ) := by exact_mod_cast r1
    push_cast at h2
    norm_num at h2 ⊢
    linarith
  · have h2 : ((floatVal (q_rsqrt number) ^ 2 * floatVal number : ℚ) : ℝ)
        ≤ (((1002 / 1000 : ℚ) ^ 2 : ℚ) : ℝ) := by exact_mod_cast r2
    push_cast at h2
    norm_num at h2 ⊢
    linarith

theorem C2_q_rsqrt_error_witness :
    (floatVal 0x40800000 = 4 ∧ q_rsqrt 0x40800000 = 0x3EFF910F ∧
      |((floatVal (q_rsqrt 0x40800000) : ℚ) : ℝ) - 1 / Real.sqrt ((floatVal 0x40800000 : ℚ) : ℝ)|
        / (1 / Real.sqrt ((floatVal 0x40800000 : ℚ) : ℝ)) ≤ 2 / 1000) ∧
    (floatVal 0x3F800000 = 1 ∧
      |((floatVal (q_rsqrt 0x3F800000) : ℚ) : ℝ) - 1 / Real.sqrt ((floatVal 0x3F800000 : ℚ) : ℝ)|
        / (1 / Real.sqrt ((floatVal 0x3F800000 : ℚ) : ℝ)) ≤ 2 / 1000) :=
  ⟨⟨floatVal_four, by decide,
      (C2_q_rsqrt_error 0x40800000 (by norm_num) (by decide)
        (by rw [floatVal_four]; norm_num)).2.2.2⟩,
    ⟨floatVal_one,
      (C2_q_rsqrt_error 0x3F800000 (by norm_num) (by decide)
        (by rw [floatVal_one]; norm_num)).2.2.2⟩⟩

/-- Claim C3: for every finite float `number` with `1e-30 ≤ number`, the value
`r` of `q_rsqrt_v2_more_precise number` (every float operation rounded to
nearest) is positive, `0.999 ^ 2 ≤ r ^ 2 * number ≤ 1.001 ^ 2`, and `r` is
within relative error 0.001 of the real inverse square root of `number`. -/
theorem C3_q_rsqrt_v2_error (number : Nat) (h32 : number < 2 ^ 32)
    (hfin : expField number ≠ 255) (hlo : (1 : ℚ) / 10 ^ 30 ≤ floatVal number) :
    0 < floatVal (q_rsqrt_v2_more_precise number) ∧
    (999 / 1000 : ℚ) ^ 2 ≤ floatVal (q_rsqrt_v2_more_precise number) ^ 2 * floatVal number ∧
    floatVal (q_rsqrt_v2_more_precise number) ^ 2 * floatVal number ≤ (1001 / 1000 : ℚ) ^ 2 ∧
    |((floatVal (q_rsqrt_v2_more_precise number) : ℚ) : ℝ)
        - 1 / Real.sqrt ((floatVal number : ℚ) : ℝ)|
      / (1 / Real.sqrt ((floatVal number : ℚ) : ℝ)) ≤ 1 / 1000 := by
  obtain ⟨hn, _⟩ := domain_of_ge number h32 hfin hlo
  obtain ⟨_, r0, r1, r2, _, _⟩ := q_rsqrt_v2_bounds number hn
  have hX := floatVal_pos number hn
  refine ⟨r0, r1, r2, ?_⟩
  apply relErr_rsqrt_le
  · exact_mod_cast r0
  · exact_mod_cast hX
  · norm_num
  · have h2 : (((999 / 1000 : ℚ) ^ 2 : ℚ) : ℝ)
        ≤ ((floatVal (q_rsqrt_v2_more_precise number) ^ 2 * floatVal number : ℚ) : ℝ) := by
      exact_mod_cast r1
    push_cast at h2
    norm_num at h2 ⊢
    linarith
  · have h2 : ((floatVal (q_rsqrt_v2_more_precise number) ^ 2 * floatVal number : ℚ) : ℝ)
        ≤ (((1001 / 1000 : ℚ) ^ 2 : ℚ) : ℝ) := by exact_mod_cast r2
    push_cast at h2
    norm_num at h2 ⊢
    linarith

theorem C3_q_rsqrt_v2_error_witness :
    (floatVal 0x40800000 = 4 ∧ q_rsqrt_v2_more_precise 0x40800000 = 0x3F0002AE ∧
      |((floatVal (q_rsqrt_v2_more_precise 0x40800000) : ℚ) : ℝ)
          - 1 / Real.sqrt ((floatVal 0x40800000 : ℚ) : ℝ)|
        / (1 / Real.sqrt ((floatVal 0x40800000 : ℚ) : ℝ)) ≤ 1 / 1000) ∧
    (floatVal 0x3F800000 = 1 ∧
      |((floatVal (q_rsqrt_v2_more_precise 0x3F800000) : ℚ) : ℝ)
          - 1 / Real.sqrt ((floatVal 0x3F800000 : ℚ) : ℝ)|
        / (1 / Real.sqrt ((floatVal 0x3F800000 : ℚ) : ℝ)) ≤ 1 / 1000) :=
  ⟨⟨floatVal_four, by decide,
      (C3_q_rsqrt_v2_error 0x40800000 (by norm_num) (by decide)
        (by rw [floatVal_four]; norm_num)).2.2.2⟩,
    ⟨floatVal_one,
      (C3_q_rsqrt_v2_error 0x3F800000 (by norm_num) (by decide)
        (by rw [floatVal_one]; norm_num)).2.2.2⟩⟩

end FastSqrt


namespace FastSqrt

/-- Claim C5 fails as stated: for the adjacent positive normal inputs
`0x3F800033 < 0x3F800034` the result of `q_rsqrt` increases from `0x3F7F90DE`
to `0x3F7F90DF`, and for `0x3F800045 < 0x3F800046` the result of
`q_rsqrt_v2_more_precise` increases from `0x3F80028C` to `0x3F80028D`. -/
theorem C5_counterexample :
    (isPosNormal 0x3F800033 ∧ isPosNormal 0x3F800034 ∧
      floatVal 0x3F800033 ≤ floatVal 0x3F800034 ∧
      q_rsqrt 0x3F800033 = 0x3F7F90DE ∧ q_rsqrt 0x3F800034 = 0x3F7F90DF ∧
      ¬ (floatVal (q_rsqrt 0x3F800033) ≥ floatVal (q_rsqrt 0x3F800034))) ∧
    (isPosNormal 0x3F800045 ∧ isPosNormal 0x3F800046 ∧
      floatVal 0x3F800045 ≤ floatVal 0x3F800046 ∧
      q_rsqrt_v2_more_precise 0x3F800045 = 0x3F80028C ∧
      q_rsqrt_v2_more_precise 0x3F800046 = 0x3F80028D ∧
      ¬ (floatVal (q_rsqrt_v2_more_precise 0x3F800045)
          ≥ floatVal (q_rsqrt_v2_more_precise 0x3F800046))) := by
  have e1 : q_rsqrt 0x3F800033 = 0x3F7F90DE := by decide
  have e2 : q_rsqrt 0x3F800034 = 0x3F7F90DF := by decide
  have e3 : q_rsqrt_v2_more_precise 0x3F800045 = 0x3F80028C := by decide
  have e4 : q_rsqrt_v2_more_precise 0x3F800046 = 0x3F80028D := by decide
  refine ⟨⟨by decide, by decide, floatVal_le _ _ (by decide) (by decide) (by norm_num), e1, e2, ?_⟩,
    ⟨by decide, by decide, floatVal_le _ _ (by decide) (by decide) (by norm_num), e3, e4, ?_⟩⟩
  · rw [e1, e2]
    exact not_le.mpr (floatVal_lt _ _ (by decide) (by decide) (by norm_num))
  · rw [e3, e4]
    exact not_le.mpr (floatVal_lt _ _ (by decide) (by decide) (by norm_num))

/-- Claim C5, amended: over positive normal floats `a ≤ b` the initial
bit-transform estimates of both functions are non-increasing, the refinement
steps evaluated without rounding are non-increasing, and the returned values
are non-increasing up to rounding: `q_rsqrt b` is at most `(1 + 1e-6)` times
`q_rsqrt a`, and `q_rsqrt_v2_more_precise b` is at most `(1 + 1e-6)` times
`q_rsqrt_v2_more_precise a`. -/
theorem C5_inverse_sqrt_monotone_up_to_rounding (a b : Nat) (ha : isPosNormal a)
    (hb : isPosNormal b) (hab : floatVal a ≤ floatVal b) :
    floatVal (q_rsqrt_estimate b) ≤ floatVal (q_rsqrt_estimate a) ∧
    floatVal (q_rsqrt_v2_estimate b) ≤ floatVal (q_rsqrt_v2_estimate a) ∧
    q_rsqrt_exact b ≤ q_rsqrt_exact a ∧
    q_rsqrt_v2_exact b ≤ q_rsqrt_v2_exact a ∧
    floatVal (q_rsqrt b) ≤ floatVal (q_rsqrt a) * (1 + 1 / 10 ^ 6) ∧
    floatVal (q_rsqrt_v2_more_precise b)
      ≤ floatVal (q_rsqrt_v2_more_precise a) * (1 + 1 / 10 ^ 6) := by
  have hle : a ≤ b := (floatVal_le_iff a b ha hb).mp hab
  obtain ⟨a1, a2⟩ := posNormal_bounds a ha
  obtain ⟨b1, b2⟩ := posNormal_bounds b hb
  have ha31 : a < 2 ^ 31 := by norm_num; omega
  have hb31 : b < 2 ^ 31 := by norm_num; omega
  obtain ⟨ea1, ea2⟩ := estimate_eq a ha31
  obtain ⟨eb1, eb2⟩ := estimate_eq b hb31
  obtain ⟨na1, na2⟩ := estimate_posNormal a ha31
  obtain ⟨nb1, nb2⟩ := estimate_posNormal b hb31
  have m1 := q_rsqrt_exact_antitone a b ha hb hle
  have m2 := q_rsqrt_v2_exact_antitone a b ha hb hle
  refine ⟨floatVal_le _ _ nb1 na1 (by omega), floatVal_le _ _ nb2 na2 (by omega), m1, m2, ?_, ?_⟩
  · obtain ⟨p0, p1, _⟩ := q_rsqrt_near_exact a ha
    obtain ⟨_, _, p2⟩ := q_rsqrt_near_exact b hb
    norm_num at p1 p2 ⊢
    linarith
  · obtain ⟨p0, p1, _⟩ := q_rsqrt_v2_near_exact a ha
    obtain ⟨_, _, p2⟩ := q_rsqrt_v2_near_exact b hb
    norm_num at p1 p2 ⊢
    linarith

theorem C5_inverse_sqrt_monotone_up_to_rounding_witness :
    (isPosNormal 0x3F800033 ∧ isPosNormal 0x3F800034 ∧
      floatVal (q_rsqrt 0x3F800034) ≤ floatVal (q_rsqrt 0x3F800033) * (1 + 1 / 10 ^ 6)) ∧
    (isPosNormal 0x00FFFFE3 ∧ isPosNormal 0x00FFFFE5 ∧
      q_rsqrt 0x00FFFFE3 = 0x5EB4F967 ∧ q_rsqrt 0x00FFFFE5 = 0x5EB4F968 ∧
      floatVal (q_rsqrt 0x00FFFFE5) ≤ floatVal (q_rsqrt 0x00FFFFE3) * (1 + 1 / 10 ^ 6)) :=
  ⟨⟨by decide, by decide,
    (C5_inverse_sqrt_monotone_up_to_rounding 0x3F800033 0x3F800034 (by decide) (by decide)
      (floatVal_le _ _ (by decide) (by decide) (by norm_num))).2.2.2.2.1⟩,
   ⟨by decide, by decide, by decide, by decide,
    (C5_inverse_sqrt_monotone_up_to_rounding 0x00FFFFE3 0x00FFFFE5 (by decide) (by decide)
      (floatVal_le _ _ (by decide) (by decide) (by norm_num))).2.2.2.2.1⟩⟩

end FastSqrt
